import Mathlib

/-!
# A shallow embedding of `tokenizer_ast.c`

The program is a tiny interpreter: `tokenize` scans the source text into the
global `tokens` array, the recursive-descent parser (`parse_term`, `parse_expr`,
`parse_assign`, `parse_print`, `parse_stmt`) reads that array through the global
cursor `current_token`, `eval` walks one statement tree against the global
`variables` table, and `main` alternates `parse_stmt` and `eval` until the
cursor reaches the end-of-input token.

Conventions of the embedding.

* The source text is the C string handed to `tokenize`, embedded as a
  `List Char`.  The scanner stops at the end of the list and, like the C loop
  `while (*p != '\0')`, at a NUL character; `c_string` is the part of a buffer
  the scanner looks at.  Characters outside ASCII fall in no `ctype.h` class of
  the C locale.
* `int` is a 32-bit two's-complement integer held in an `Int`; `to_int` is the
  wraparound conversion, `long` is 64 bits wide (`LONG_MAX`).
* The global array `tokens` has `TOKENS_SIZE` entries and `tokenize` writes
  `tokens[token_count++]` without a check.  `tokenize` is embedded as the list
  of the tokens it writes, in the order of the writes.  That list is the
  contents of `tokens[0 .. token_count)` when it has at most `TOKENS_SIZE`
  entries; a longer list stands for a write outside the array, from which on
  the behaviour of the C program is undefined.  The parser and `main` are
  embedded on that list, so what they return is what the program does when the
  tokens fit the array.  Reading `tokens` at an index that was never written
  yields the zero-initialised entry of the static array, `ZERO_TOKEN`.
* The table `variables` has 256 entries and is a list.  A new entry takes an
  assignment, of three tokens or more, so the table stays far from full while
  the tokens fit their array.
* `exit(1)` is the result `Result.exit`, carrying the diagnostic the C code
  writes to `stderr`.
* C loops whose trip count is not structurally evident take a fuel argument;
  the entry points pass enough fuel and `Fatal.out_of_fuel` is never returned
  by them.
-/

namespace TokenizerAst

/-! ## Tokens -/

/-- The C enum `TokenType`. -/
inductive TokenType where
  | TOKEN_NUMBER
  | TOKEN_IDENTIFIER
  | TOKEN_EQUALS
  | TOKEN_PLUS
  | TOKEN_PRINT
  | TOKEN_EOF
  | TOKEN_NEWLINE
  deriving DecidableEq, Repr

open TokenType

/-- The C struct `Token`.  The scanner leaves `value` indeterminate for
identifier and `print` tokens; it is held as `0` there and never read. -/
structure Token where
  type : TokenType
  lexeme : String
  value : Int
  deriving DecidableEq, Repr

/-- The number of entries of the global array `Token tokens[256]`. -/
def TOKENS_SIZE : Nat := 256

/-- The reason of an `exit(1)`: one constructor per diagnostic of the C code,
plus the fuel marker of the embedding. -/
inductive Fatal where
  | unexpected_character (c : Char)
  | unexpected_token (lexeme : String)
  | expected_identifier
  | expected_equals
  | expected_print
  | undefined_variable (name : String)
  | out_of_fuel
  deriving DecidableEq, Repr

/-- Either a value, or the process has exited with status 1. -/
inductive Result (α : Type) where
  | ok (v : α)
  | exit (e : Fatal)
  deriving DecidableEq, Repr

/-! ## `ctype.h` in the C locale, `strtol`, and `int` -/

/-- C `isspace`: space, `\t`, `\n`, `\v`, `\f`, `\r`. -/
def isspace (c : Char) : Bool :=
  c = ' ' || c = '\t' || c = '\n' || c = '\x0b' || c = '\x0c' || c = '\r'

/-- C `isdigit`. -/
def isdigit (c : Char) : Bool := 48 ≤ c.toNat && c.toNat ≤ 57

/-- C `isalpha`. -/
def isalpha (c : Char) : Bool :=
  (65 ≤ c.toNat && c.toNat ≤ 90) || (97 ≤ c.toNat && c.toNat ≤ 122)

/-- C `isalnum`. -/
def isalnum (c : Char) : Bool := isalpha c || isdigit c

/-- Conversion to a 32-bit `int`: wraparound modulo `2^32`. -/
def to_int (x : Int) : Int := (x + 2147483648) % 4294967296 - 2147483648

/-- The largest `long` (64 bits). -/
def LONG_MAX : Int := 9223372036854775807

/-- The number denoted by a list of decimal digits. -/
def decimal_value (ds : List Char) : Nat :=
  ds.foldl (fun acc d => 10 * acc + (d.toNat - 48)) 0

/-- C `strtol(p, &p, 10)` called at a digit: the value of the leading digit
run, clamped to `LONG_MAX`. -/
def strtol (p : List Char) : Int :=
  min (decimal_value (p.takeWhile isdigit) : Int) LONG_MAX

/-! ## The scanner -/

/-- The token written when the scanner meets a newline. -/
def NEWLINE_TOKEN : Token := ⟨TOKEN_NEWLINE, "\n", 0⟩

/-- The token written for `=`. -/
def EQUALS_TOKEN : Token := ⟨TOKEN_EQUALS, "=", 0⟩

/-- The token written for `+`. -/
def PLUS_TOKEN : Token := ⟨TOKEN_PLUS, "+", 0⟩

/-- The token written for the keyword. -/
def PRINT_TOKEN : Token := ⟨TOKEN_PRINT, "print", 0⟩

/-- The token appended when the scanner stops. -/
def EOF_TOKEN : Token := ⟨TOKEN_EOF, "EOF", 0⟩

/-- The token written for a digit run with `int` value `v`: the lexeme is
`sprintf("%d", v)`. -/
def number_token (v : Int) : Token := ⟨TOKEN_NUMBER, toString v, v⟩

/-- The token written for an identifier. -/
def identifier_token (name : List Char) : Token := ⟨TOKEN_IDENTIFIER, String.mk name, 0⟩

/-- What one trip through the body of the `while` loop of `tokenize` does at
position `p`. -/
inductive Scan where
  | stop
  | skip (rest : List Char)
  | emit (t : Token) (rest : List Char)
  | bad (c : Char)
  deriving DecidableEq, Repr

/-- One trip through the loop of `tokenize` (lines 27-66). -/
def scan : List Char → Scan
  | [] => .stop
  | c :: cs =>
    if c = '\x00' then .stop
    else if isspace c then
      if c = '\n' then .emit NEWLINE_TOKEN cs else .skip cs
    else if isdigit c then
      .emit (number_token (to_int (strtol (c :: cs)))) ((c :: cs).dropWhile isdigit)
    else if isalpha c then
      if (c :: cs).take 5 = ['p', 'r', 'i', 'n', 't'] then
        .emit PRINT_TOKEN ((c :: cs).drop 5)
      else
        .emit (identifier_token (((c :: cs).takeWhile isalnum).take 63))
          ((c :: cs).drop (((c :: cs).takeWhile isalnum).take 63).length)
    else if c = '=' then .emit EQUALS_TOKEN cs
    else if c = '+' then .emit PLUS_TOKEN cs
    else .bad c

/-- The loop of `tokenize` followed by the final `TOKEN_EOF` write. -/
def tokenize_loop : Nat → List Char → Result (List Token)
  | 0, _ => .exit .out_of_fuel
  | fuel + 1, p =>
    match scan p with
    | .stop => .ok [EOF_TOKEN]
    | .skip rest => tokenize_loop fuel rest
    | .emit t rest =>
      match tokenize_loop fuel rest with
      | .ok ts => .ok (t :: ts)
      | .exit e => .exit e
    | .bad c => .exit (.unexpected_character c)

/-- C `tokenize`: the tokens it writes with `tokens[token_count++] = ...`, in
the order of the writes, the end-of-input token of line 67 last.  When there
are at most `TOKENS_SIZE` of them, they are the contents of
`tokens[0 .. token_count)` on return; the write number `TOKENS_SIZE + 1` is
outside the array. -/
def tokenize (source : List Char) : Result (List Token) :=
  tokenize_loop (source.length + 1) source

/-! ## Syntax trees -/

/-- The C struct `ASTNode`: a tagged union over `ASTNodeType`. -/
inductive ASTNode where
  | AST_ASSIGN (name : String) (value : ASTNode)
  | AST_PRINT (expr : ASTNode)
  | AST_BINARY_OP (left right : ASTNode)
  | AST_NUMBER (number : Int)
  | AST_VARIABLE (name : String)
  deriving DecidableEq, Repr

/-! ## The parser

The parser functions read the global `tokens` and move the global cursor
`current_token`; here both are arguments and the new cursor is returned next to
the result, also when the result is an exit. -/

/-- The zero-initialised entry of the static array `tokens`. -/
def ZERO_TOKEN : Token := ⟨TOKEN_NUMBER, "", 0⟩

/-- C `get_current_token`. -/
def get_current_token (tokens : List Token) (current_token : Nat) : Token :=
  tokens.getD current_token ZERO_TOKEN

/-- C `advance_token`: the new cursor. -/
def advance_token (tokens : List Token) (current_token : Nat) : Nat :=
  if (get_current_token tokens current_token).type ≠ TOKEN_EOF then current_token + 1
  else current_token

/-- C `match`: whether the current token has the type, and the new cursor. -/
def match_token (tokens : List Token) (current_token : Nat) (type : TokenType) : Bool × Nat :=
  if (get_current_token tokens current_token).type = type then
    (true, advance_token tokens current_token)
  else (false, current_token)

/-- C `parse_term`. -/
def parse_term (tokens : List Token) (current_token : Nat) : Result ASTNode × Nat :=
  let token := get_current_token tokens current_token
  if token.type = TOKEN_NUMBER then
    (.ok (.AST_NUMBER token.value), advance_token tokens current_token)
  else if token.type = TOKEN_IDENTIFIER then
    (.ok (.AST_VARIABLE token.lexeme), advance_token tokens current_token)
  else (.exit (.unexpected_token token.lexeme), current_token)

/-- The `while (match(TOKEN_PLUS))` loop of `parse_expr`. -/
def parse_expr_loop : Nat → List Token → Nat → ASTNode → Result ASTNode × Nat
  | 0, _, current_token, _ => (.exit .out_of_fuel, current_token)
  | fuel + 1, tokens, current_token, left =>
    match match_token tokens current_token TOKEN_PLUS with
    | (true, cur) =>
      match parse_term tokens cur with
      | (.ok right, cur') => parse_expr_loop fuel tokens cur' (.AST_BINARY_OP left right)
      | (.exit e, cur') => (.exit e, cur')
    | (false, cur) => (.ok left, cur)

/-- C `parse_expr`. -/
def parse_expr (tokens : List Token) (current_token : Nat) : Result ASTNode × Nat :=
  match parse_term tokens current_token with
  | (.ok left, cur) => parse_expr_loop (tokens.length + 1) tokens cur left
  | (.exit e, cur) => (.exit e, cur)

/-- C `parse_assign`. -/
def parse_assign (tokens : List Token) (current_token : Nat) : Result ASTNode × Nat :=
  let identifier_token := get_current_token tokens current_token
  if identifier_token.type ≠ TOKEN_IDENTIFIER then (.exit .expected_identifier, current_token)
  else
    let name := identifier_token.lexeme
    match match_token tokens (advance_token tokens current_token) TOKEN_EQUALS with
    | (false, cur) => (.exit .expected_equals, cur)
    | (true, cur) =>
      match parse_expr tokens cur with
      | (.ok value, cur') => (.ok (.AST_ASSIGN name value), cur')
      | (.exit e, cur') => (.exit e, cur')

/-- C `parse_print`. -/
def parse_print (tokens : List Token) (current_token : Nat) : Result ASTNode × Nat :=
  match match_token tokens current_token TOKEN_PRINT with
  | (false, cur) => (.exit .expected_print, cur)
  | (true, cur) =>
    match parse_expr tokens cur with
    | (.ok expr, cur') => (.ok (.AST_PRINT expr), cur')
    | (.exit e, cur') => (.exit e, cur')

/-- The `while` loop at the head of `parse_stmt`, skipping newline tokens:
the cursor after it, or `none` when the fuel is used up. -/
def skip_newlines : Nat → List Token → Nat → Option Nat
  | 0, _, _ => none
  | fuel + 1, tokens, current_token =>
    if (get_current_token tokens current_token).type = TOKEN_NEWLINE then
      skip_newlines fuel tokens (advance_token tokens current_token)
    else some current_token

/-- C `parse_stmt`. -/
def parse_stmt (tokens : List Token) (current_token : Nat) : Result ASTNode × Nat :=
  match skip_newlines (tokens.length + 1) tokens current_token with
  | none => (.exit .out_of_fuel, current_token)
  | some cur =>
    let token := get_current_token tokens cur
    if token.type = TOKEN_IDENTIFIER then parse_assign tokens cur
    else if token.type = TOKEN_PRINT then parse_print tokens cur
    else (.exit (.unexpected_token token.lexeme), cur)

/-! ## Evaluation -/

/-- The C struct `Variable`. -/
structure Variable where
  name : String
  value : Int
  deriving DecidableEq, Repr

/-- The state `eval` works on: the table `variables[0 .. variable_count)` (`vars`) and
what has been written to standard output. -/
structure Machine where
  vars : List Variable
  output : String
  deriving DecidableEq, Repr

/-- The lookup loop of `eval` for `AST_VARIABLE`: the value of the first entry
with the name. -/
def lookup : List Variable → String → Option Int
  | [], _ => none
  | v :: vs, name => if v.name = name then some v.value else lookup vs name

/-- The store loop of `eval` for `AST_ASSIGN`: the first entry with the name
gets the value; without one, a new entry is appended. -/
def store : List Variable → String → Int → List Variable
  | [], name, value => [⟨name, value⟩]
  | v :: vs, name, value =>
    if v.name = name then ⟨v.name, value⟩ :: vs else v :: store vs name value

/-- C `eval`.  The operands of `+` are evaluated left first; `int` addition
wraps around. -/
def eval : ASTNode → Machine → Result Int × Machine
  | .AST_NUMBER n, m => (.ok n, m)
  | .AST_VARIABLE name, m =>
    match lookup m.vars name with
    | some v => (.ok v, m)
    | none => (.exit (.undefined_variable name), m)
  | .AST_BINARY_OP left right, m =>
    match eval left m with
    | (.exit e, m1) => (.exit e, m1)
    | (.ok a, m1) =>
      match eval right m1 with
      | (.exit e, m2) => (.exit e, m2)
      | (.ok b, m2) => (.ok (to_int (a + b)), m2)
  | .AST_ASSIGN name value, m =>
    match eval value m with
    | (.exit e, m1) => (.exit e, m1)
    | (.ok v, m1) => (.ok v, { m1 with vars := store m1.vars name v })
  | .AST_PRINT expr, m =>
    match eval expr m with
    | (.exit e, m1) => (.exit e, m1)
    | (.ok v, m1) => (.ok v, { m1 with output := m1.output ++ toString v ++ "\n" })

/-! ## The driver -/

/-- How a run ends: `status` is `ok ()` for `return 0` and `exit e` for
`exit(1)`; the cursor and the machine are the globals at that moment. -/
structure Run where
  status : Result Unit
  current_token : Nat
  machine : Machine
  deriving DecidableEq, Repr

/-- The machine at process start. -/
def INITIAL : Machine := ⟨[], ""⟩

/-- The `while` loop of `main` (lines 291-298). -/
def main_loop : Nat → List Token → Nat → Machine → Run
  | 0, _, current_token, m => ⟨.exit .out_of_fuel, current_token, m⟩
  | fuel + 1, tokens, current_token, m =>
    if (get_current_token tokens current_token).type ≠ TOKEN_EOF then
      if (get_current_token tokens current_token).type ≠ TOKEN_NEWLINE then
        match parse_stmt tokens current_token with
        | (.exit e, cur) => ⟨.exit e, cur, m⟩
        | (.ok stmt, cur) =>
          match eval stmt m with
          | (.exit e, m1) => ⟨.exit e, cur, m1⟩
          | (.ok _, m1) => main_loop fuel tokens cur m1
      else main_loop fuel tokens (advance_token tokens current_token) m
    else ⟨.ok (), current_token, m⟩

/-- C `main` from line 289 on, given the contents of `source_code`: the driver
loop on the tokens `tokenize` wrote.  It is the run of the program when those
tokens fit the array `tokens`, at most `TOKENS_SIZE` of them. -/
def main (source_code : List Char) : Run :=
  match tokenize source_code with
  | .exit e => ⟨.exit e, 0, INITIAL⟩
  | .ok tokens => main_loop (tokens.length + 1) tokens 0 INITIAL

/-! ## Vocabulary of the properties -/

/-- An expression tree: only number, variable and addition nodes. -/
def is_expr : ASTNode → Bool
  | .AST_NUMBER _ => true
  | .AST_VARIABLE _ => true
  | .AST_BINARY_OP left right => is_expr left && is_expr right
  | .AST_ASSIGN _ _ => false
  | .AST_PRINT _ => false

/-- The characters the scanner accepts: whitespace, digits, letters, `=`, `+`. -/
def lexable (c : Char) : Bool :=
  isspace c || isdigit c || isalpha c || c = '=' || c = '+'

/-- The C string a buffer holds: the characters before the first NUL. -/
def c_string (source : List Char) : List Char :=
  source.takeWhile (fun c => c != '\x00')

/-- What a trip through the loop consumes: a non-empty prefix of lexable
characters. -/
def consumed (p rest : List Char) : Prop :=
  ∃ d, d ≠ [] ∧ p = d ++ rest ∧ ∀ c ∈ d, lexable c = true

/-- The text ends at a token boundary: it is empty or its last character is not
alphanumeric. -/
def ends_token (l : List Char) : Prop := ∀ z, l.getLast? = some z → isalnum z = false

/-- A token `parse_term` accepts. -/
def is_term (t : Token) : Bool :=
  t.type = TOKEN_NUMBER || t.type = TOKEN_IDENTIFIER

/-- The leaf `parse_term` builds from a term token. -/
def leaf (t : Token) : ASTNode :=
  if t.type = TOKEN_NUMBER then .AST_NUMBER t.value else .AST_VARIABLE t.lexeme

/-- The token sequence `p_1 t_1 p_2 t_2 ...` of a list of pairs. -/
def plus_terms : List (Token × Token) → List Token
  | [] => []
  | (p, t) :: more => p :: t :: plus_terms more

/-- The trees the `parse_stmt` calls of the loop of `main` return, from a
cursor on: the loop of `main` with the `eval` call left out.  It is `ok` when
no call exits and the fuel lasts; more fuel does not change an `ok`. -/
def parse_program : Nat → List Token → Nat → Result (List ASTNode)
  | 0, _, _ => .exit .out_of_fuel
  | fuel + 1, tokens, current_token =>
    if (get_current_token tokens current_token).type ≠ TOKEN_EOF then
      if (get_current_token tokens current_token).type ≠ TOKEN_NEWLINE then
        match parse_stmt tokens current_token with
        | (.exit e, _) => .exit e
        | (.ok stmt, cur) =>
          match parse_program fuel tokens cur with
          | .ok stmts => .ok (stmt :: stmts)
          | .exit e => .exit e
      else parse_program fuel tokens (advance_token tokens current_token)
    else .ok []

/-- Evaluating statement trees one after the other with `eval`, up to the
first exit. -/
def exec : List ASTNode → Machine → Result Unit × Machine
  | [], m => (.ok (), m)
  | stmt :: stmts, m =>
    match eval stmt m with
    | (.exit e, m1) => (.exit e, m1)
    | (.ok _, m1) => exec stmts m1

/-- The terms of an expression, left to right. -/
def terms : ASTNode → List ASTNode
  | .AST_BINARY_OP left right => terms left ++ terms right
  | e => [e]

/-- The value of a term under variable bindings. -/
def term_value (bindings : String → Int) : ASTNode → Int
  | .AST_NUMBER n => n
  | .AST_VARIABLE name => bindings name
  | _ => 0

/-- The value of an expression as the sum of its terms read left to right,
each addition in `int` arithmetic (32-bit wraparound). -/
def spec_value (bindings : String → Int) (e : ASTNode) : Int :=
  match terms e with
  | [] => 0
  | t :: rest =>
    rest.foldl (fun acc u => to_int (acc + term_value bindings u)) (term_value bindings t)

/-- The bindings after an assignment. -/
def bind_var (bindings : String → Int) (name : String) (v : Int) : String → Int :=
  fun x => if x = name then v else bindings x

/-- An expression of number, variable and addition nodes whose variables are
all among `defined`. -/
def uses_only (defined : List String) : ASTNode → Bool
  | .AST_NUMBER _ => true
  | .AST_VARIABLE name => decide (name ∈ defined)
  | .AST_BINARY_OP left right => uses_only defined left && uses_only defined right
  | _ => false

/-- A sequence of assignment and print statements that references no
variable before an assignment to it; `defined` are the names assigned so far. -/
def well_scoped (defined : List String) : List ASTNode → Bool
  | [] => true
  | .AST_ASSIGN name e :: stmts => uses_only defined e && well_scoped (name :: defined) stmts
  | .AST_PRINT e :: stmts => uses_only defined e && well_scoped defined stmts
  | _ :: _ => false

/-- The output of a program: in program order, one line per print statement
with the decimal value of its expression, the sum `spec_value` in `int`
arithmetic, under the bindings made by the earlier statements. -/
def spec_output (bindings : String → Int) : List ASTNode → String
  | [] => ""
  | .AST_ASSIGN name e :: stmts =>
    spec_output (bind_var bindings name (spec_value bindings e)) stmts
  | .AST_PRINT e :: stmts =>
    toString (spec_value bindings e) ++ "\n" ++ spec_output bindings stmts
  | _ :: stmts => spec_output bindings stmts

/-- Following the words of the specification: the value of an expression is
the sum of its terms, an integer. -/
def exact_value (bindings : String → Int) (e : ASTNode) : Int :=
  ((terms e).map (term_value bindings)).sum

/-- Following the words of the specification: the output of a program is, in
program order, one line per print statement with the decimal value of its
expression, the sum of its terms, under the bindings made by the earlier
statements. -/
def exact_output (bindings : String → Int) : List ASTNode → String
  | [] => ""
  | .AST_ASSIGN name e :: stmts =>
    exact_output (bind_var bindings name (exact_value bindings e)) stmts
  | .AST_PRINT e :: stmts =>
    toString (exact_value bindings e) ++ "\n" ++ exact_output bindings stmts
  | _ :: stmts => exact_output bindings stmts

/-- The names of the entries of the variable table, in table order. -/
def names (m : Machine) : List String := m.vars.map fun v => v.name

/-- A sequence of `eval` calls, each on the machine the call before left,
whether that call returned or exited. -/
def eval_calls (calls : List ASTNode) (m : Machine) : Machine :=
  calls.foldl (fun m1 e => (eval e m1).2) m

/-- The trees the `parse_stmt` calls of the loop of `main` return up to the
end of input or the first call that exits, and the reason of that exit: the
loop of `main` with the `eval` call left out. -/
def parse_until_error : Nat → List Token → Nat → List ASTNode × Option Fatal
  | 0, _, _ => ([], some .out_of_fuel)
  | fuel + 1, tokens, current_token =>
    if (get_current_token tokens current_token).type ≠ TOKEN_EOF then
      if (get_current_token tokens current_token).type ≠ TOKEN_NEWLINE then
        match parse_stmt tokens current_token with
        | (.exit e, _) => ([], some e)
        | (.ok stmt, cur) =>
          (stmt :: (parse_until_error fuel tokens cur).1, (parse_until_error fuel tokens cur).2)
      else parse_until_error fuel tokens (advance_token tokens current_token)
    else ([], none)

/-- Evaluating statement trees in order with `eval` and then, when all of
them returned, exiting for the reason given, if one is. -/
def exec_then (stmts : List ASTNode) (err : Option Fatal) (m : Machine) :
    Result Unit × Machine :=
  match exec stmts m with
  | (.exit e, m1) => (.exit e, m1)
  | (.ok _, m1) =>
    match err with
    | none => (.ok (), m1)
    | some e => (.exit e, m1)

/-- A tree as `parse_stmt` returns it. -/
def is_stmt : ASTNode → Bool
  | .AST_ASSIGN _ e => is_expr e
  | .AST_PRINT e => is_expr e
  | _ => false

/-- The source of 64 lines `x=1`: 256 bytes. -/
def SOURCE_64_LINES : List Char := (List.replicate 64 ['x', '=', '1', '\n']).flatten

/-- The tokens of the 64 lines `x=1`, without the end-of-input token. -/
def TOKENS_64_LINES : List Token :=
  (List.replicate 64
    [identifier_token ['x'], EQUALS_TOKEN, number_token 1, NEWLINE_TOKEN]).flatten

/-- The source `print 7`, then 63 lines `x=1`, then the line `x 5`: 264 bytes. -/
def SOURCE_LATE_ERROR : List Char :=
  "print 7\n".toList ++ (List.replicate 63 ['x', '=', '1', '\n']).flatten ++ "x 5\n".toList

/-- The tokens of the source `SOURCE_LATE_ERROR`. -/
def TOKENS_LATE_ERROR : List Token :=
  [PRINT_TOKEN, number_token 7, NEWLINE_TOKEN] ++
    (List.replicate 63
      [identifier_token ['x'], EQUALS_TOKEN, number_token 1, NEWLINE_TOKEN]).flatten ++
    [identifier_token ['x'], number_token 5, NEWLINE_TOKEN, EOF_TOKEN]

/-- The source of 63 lines `x=7` and the line `print x`: 260 bytes. -/
def SOURCE_63_LINES_PRINT : List Char :=
  (List.replicate 63 ['x', '=', '7', '\n']).flatten ++ "print x\n".toList

/-- The tokens of one statement of the grammar: the head, the first term and
the following pairs of a plus token and a term. -/
inductive Statement where
  | assign (id eq first : Token) (more : List (Token × Token))
  | print (pr first : Token) (more : List (Token × Token))
  deriving DecidableEq, Repr

/-- The token sequence of a statement. -/
def Statement.tokens : Statement → List Token
  | .assign id eq first more => id :: eq :: first :: plus_terms more
  | .print pr first more => pr :: first :: plus_terms more

/-- The tokens have the types the grammar asks for. -/
def Statement.well_formed : Statement → Bool
  | .assign id eq first more =>
    decide (id.type = TOKEN_IDENTIFIER) && decide (eq.type = TOKEN_EQUALS) && is_term first &&
      more.all fun pt => decide (pt.1.type = TOKEN_PLUS) && is_term pt.2
  | .print pr first more =>
    decide (pr.type = TOKEN_PRINT) && is_term first &&
      more.all fun pt => decide (pt.1.type = TOKEN_PLUS) && is_term pt.2

/-- The tree of a statement: its terms added up from the left. -/
def Statement.tree : Statement → ASTNode
  | .assign id _ first more =>
    .AST_ASSIGN id.lexeme (List.foldl .AST_BINARY_OP (leaf first) (more.map fun pt => leaf pt.2))
  | .print _ first more =>
    .AST_PRINT (List.foldl .AST_BINARY_OP (leaf first) (more.map fun pt => leaf pt.2))

/-- The token sequence of a program: each statement after its own run of
newline tokens, then a last run of newline tokens and the end-of-input token. -/
def program_tokens : List (List Token × Statement) → List Token → Token → List Token
  | [], trailing, eof => trailing ++ [eof]
  | (gap, s) :: lines, trailing, eof => gap ++ (s.tokens ++ program_tokens lines trailing eof)

/-- The runs between the statements hold newline tokens only, the statements
are well formed, and the last token is an end-of-input token. -/
def valid_program (lines : List (List Token × Statement)) (trailing : List Token)
    (eof : Token) : Bool :=
  (lines.all fun l => (l.1.all fun t => decide (t.type = TOKEN_NEWLINE)) && l.2.well_formed) &&
    (trailing.all fun t => decide (t.type = TOKEN_NEWLINE)) && decide (eof.type = TOKEN_EOF)

/-- The statements of the source `SOURCE_63_LINES_PRINT`, each but the first
after one newline token. -/
def LINES_63_PRINT : List (List Token × Statement) :=
  ([], .assign (identifier_token ['x']) EQUALS_TOKEN (number_token 7) []) ::
    (List.replicate 62
      ([NEWLINE_TOKEN],
        Statement.assign (identifier_token ['x']) EQUALS_TOKEN (number_token 7) []) ++
    [([NEWLINE_TOKEN], .print PRINT_TOKEN (identifier_token ['x']) [])])

/-! # Properties

## Evaluation -/

theorem to_int_add_left (a b : Int) : to_int (to_int a + b) = to_int (a + b) := by
  unfold to_int; omega

theorem to_int_add_right (a b : Int) : to_int (a + to_int b) = to_int (a + b) := by
  unfold to_int; omega

theorem eval_expr_result (e : ASTNode) (m : Machine) (h : is_expr e = true) :
    ∃ r, eval e m = (r, m) := by
  induction e generalizing m with
  | AST_NUMBER n => exact ⟨_, rfl⟩
  | AST_VARIABLE name =>
    simp only [eval]
    cases lookup m.vars name <;> exact ⟨_, rfl⟩
  | AST_BINARY_OP left right ihl ihr =>
    simp only [is_expr, Bool.and_eq_true] at h
    obtain ⟨rl, hl⟩ := ihl m h.1
    obtain ⟨rr, hr⟩ := ihr m h.2
    simp only [eval, hl]
    cases rl with
    | exit e => exact ⟨_, rfl⟩
    | ok a =>
      simp only [hr]
      cases rr <;> exact ⟨_, rfl⟩
  | AST_ASSIGN name value _ => simp [is_expr] at h
  | AST_PRINT expr _ => simp [is_expr] at h

theorem eval_expr_machine (e : ASTNode) (m : Machine) (h : is_expr e = true) :
    (eval e m).2 = m := by
  obtain ⟨r, hr⟩ := eval_expr_result e m h
  rw [hr]

theorem eval_expr_eq (e : ASTNode) (m : Machine) (h : is_expr e = true) :
    eval e m = ((eval e m).1, m) := by
  obtain ⟨r, hr⟩ := eval_expr_result e m h
  rw [hr]

theorem eval_binary_op_expr (a b : ASTNode) (m : Machine) (va vb : Int)
    (ha : is_expr a = true) (hb : is_expr b = true)
    (hva : (eval a m).1 = .ok va) (hvb : (eval b m).1 = .ok vb) :
    eval (.AST_BINARY_OP a b) m = (.ok (to_int (va + vb)), m) := by
  have h1 := eval_expr_eq a m ha
  have h2 := eval_expr_eq b m hb
  rw [hva] at h1
  rw [hvb] at h2
  simp only [eval, h1, h2]

/-- C3: in every store, for expression trees `a`, `b`, `c` (number, variable and
addition nodes only) that evaluate to `va`, `vb`, `vc`, both groupings
`(a + b) + c` and `a + (b + c)` evaluate to the wraparound sum
`to_int (va + vb + vc)` and leave the machine as it was. -/
theorem eval_add_assoc (m : Machine) (a b c : ASTNode) (va vb vc : Int)
    (ha : is_expr a = true) (hb : is_expr b = true) (hc : is_expr c = true)
    (hva : (eval a m).1 = .ok va) (hvb : (eval b m).1 = .ok vb)
    (hvc : (eval c m).1 = .ok vc) :
    eval (.AST_BINARY_OP (.AST_BINARY_OP a b) c) m = (.ok (to_int (va + vb + vc)), m) ∧
    eval (.AST_BINARY_OP a (.AST_BINARY_OP b c)) m = (.ok (to_int (va + vb + vc)), m) := by
  have hab := eval_binary_op_expr a b m va vb ha hb hva hvb
  have hbc := eval_binary_op_expr b c m vb vc hb hc hvb hvc
  constructor
  · rw [eval_binary_op_expr (.AST_BINARY_OP a b) c m (to_int (va + vb)) vc
      (by simp [is_expr, ha, hb]) hc (by rw [hab]) hvc, to_int_add_left]
  · rw [eval_binary_op_expr a (.AST_BINARY_OP b c) m va (to_int (vb + vc))
      ha (by simp [is_expr, hb, hc]) hva (by rw [hbc]), to_int_add_right, Int.add_assoc]

/-- Witness of C3: with `x = 2147483647` in the store, `(x + 1) + 5` and
`x + (1 + 5)` both evaluate to the wrapped sum `-2147483643`. -/
theorem eval_add_assoc_witness :
    eval (.AST_BINARY_OP (.AST_BINARY_OP (.AST_VARIABLE "x") (.AST_NUMBER 1)) (.AST_NUMBER 5))
        ⟨[⟨"x", 2147483647⟩], ""⟩ = (.ok (-2147483643), ⟨[⟨"x", 2147483647⟩], ""⟩) ∧
    eval (.AST_BINARY_OP (.AST_VARIABLE "x") (.AST_BINARY_OP (.AST_NUMBER 1) (.AST_NUMBER 5)))
        ⟨[⟨"x", 2147483647⟩], ""⟩ = (.ok (-2147483643), ⟨[⟨"x", 2147483647⟩], ""⟩) :=
  eval_add_assoc ⟨[⟨"x", 2147483647⟩], ""⟩ (.AST_VARIABLE "x") (.AST_NUMBER 1) (.AST_NUMBER 5)
    2147483647 1 5 (by decide) (by decide) (by decide) (by decide) (by decide) (by decide)

theorem lookup_eq_none_iff (vs : List Variable) (n : String) :
    lookup vs n = none ↔ ∀ x ∈ vs, x.name ≠ n := by
  induction vs with
  | nil => simp [lookup]
  | cons v vs ih =>
    by_cases h : v.name = n
    · simp [lookup, h]
    · simp [lookup, h, ih]

theorem lookup_first (pre post : List Variable) (x : Variable) (n : String)
    (hpre : ∀ y ∈ pre, y.name ≠ n) (hx : x.name = n) :
    lookup (pre ++ x :: post) n = some x.value := by
  induction pre with
  | nil => simp [lookup, hx]
  | cons v pre ih =>
    have hv : v.name ≠ n := hpre v (List.mem_cons_self _ _)
    have h := ih (fun y hy => hpre y (List.mem_cons_of_mem _ hy))
    simp [lookup, hv, h]

theorem store_first (pre post : List Variable) (x : Variable) (n : String) (v : Int)
    (hpre : ∀ y ∈ pre, y.name ≠ n) (hx : x.name = n) :
    store (pre ++ x :: post) n v = pre ++ ⟨n, v⟩ :: post := by
  induction pre with
  | nil => simp [store, hx]
  | cons w pre ih =>
    have hw : w.name ≠ n := hpre w (List.mem_cons_self _ _)
    have h := ih (fun y hy => hpre y (List.mem_cons_of_mem _ hy))
    simp [store, hw, h]

theorem store_absent (vs : List Variable) (n : String) (v : Int)
    (h : ∀ y ∈ vs, y.name ≠ n) : store vs n v = vs ++ [⟨n, v⟩] := by
  induction vs with
  | nil => rfl
  | cons w vs ih =>
    have hw : w.name ≠ n := h w (List.mem_cons_self _ _)
    have h1 := ih (fun y hy => h y (List.mem_cons_of_mem _ hy))
    simp [store, hw, h1]

theorem first_entry (vs : List Variable) (n : String) (h : ∃ x ∈ vs, x.name = n) :
    ∃ pre x post, vs = pre ++ x :: post ∧ (∀ y ∈ pre, y.name ≠ n) ∧ x.name = n := by
  induction vs with
  | nil => simp at h
  | cons v vs ih =>
    by_cases hv : v.name = n
    · exact ⟨[], v, vs, rfl, by simp, hv⟩
    · obtain ⟨x, hx, hxn⟩ := h
      have hmem : x ∈ vs := by
        rcases List.mem_cons.1 hx with rfl | h'
        · exact absurd hxn hv
        · exact h'
      obtain ⟨pre, y, post, hsplit, hpre, hy⟩ := ih ⟨x, hmem, hxn⟩
      refine ⟨v :: pre, y, post, by rw [hsplit]; rfl, ?_, hy⟩
      intro z hz
      rcases List.mem_cons.1 hz with rfl | h'
      · exact hv
      · exact hpre z h'

theorem lookup_store_same (vs : List Variable) (n : String) (v : Int) :
    lookup (store vs n v) n = some v := by
  induction vs with
  | nil => simp [store, lookup]
  | cons w vs ih =>
    by_cases hw : w.name = n
    · simp [store, lookup, hw]
    · simp [store, lookup, hw, ih]

/-- C4: when the store has an entry named `n` and the expression tree `e`
evaluates to `v`, `eval` of `Assign(n, e)` returns `v`, replaces the value of the
first entry named `n` by `v` where it stands, and changes nothing else: the
entries before and after it, the number of entries and the output are as
before.  The program `x = 1`, `x = x + 1`, `print x` prints `2` and ends with the
single entry `x = 2`. -/
theorem assign_existing_in_place :
    (∀ (m : Machine) (n : String) (e : ASTNode) (v : Int),
      is_expr e = true → (∃ x ∈ m.vars, x.name = n) → (eval e m).1 = .ok v →
      ∃ pre x post, m.vars = pre ++ x :: post ∧ (∀ y ∈ pre, y.name ≠ n) ∧ x.name = n ∧
        eval (.AST_ASSIGN n e) m = (.ok v, ⟨pre ++ ⟨n, v⟩ :: post, m.output⟩) ∧
        (eval (.AST_ASSIGN n e) m).2.vars.length = m.vars.length) ∧
    main "x = 1\nx = x + 1\nprint x\n".toList = ⟨.ok (), 13, ⟨[⟨"x", 2⟩], "2\n"⟩⟩ := by
  refine ⟨?_, by decide⟩
  intro m n e v he hn hv
  obtain ⟨pre, x, post, hsplit, hpre, hx⟩ := first_entry m.vars n hn
  have heq := eval_expr_eq e m he
  rw [hv] at heq
  have hres : eval (.AST_ASSIGN n e) m = (.ok v, ⟨pre ++ ⟨n, v⟩ :: post, m.output⟩) := by
    simp only [eval, heq]
    rw [hsplit, store_first pre post x n v hpre hx]
  refine ⟨pre, x, post, hsplit, hpre, hx, hres, ?_⟩
  rw [hres, hsplit]
  simp

/-- Witness of C4: in the store `[y = 7, x = 1]`, `x = x + 1` returns `2` and
yields the store `[y = 7, x = 2]`. -/
theorem assign_existing_in_place_witness :
    ∃ pre x post, [(⟨"y", 7⟩ : Variable), ⟨"x", 1⟩] = pre ++ x :: post ∧
      (∀ y ∈ pre, y.name ≠ "x") ∧ x.name = "x" ∧
      eval (.AST_ASSIGN "x" (.AST_BINARY_OP (.AST_VARIABLE "x") (.AST_NUMBER 1)))
        ⟨[⟨"y", 7⟩, ⟨"x", 1⟩], ""⟩ = (.ok 2, ⟨pre ++ ⟨"x", 2⟩ :: post, ""⟩) ∧
      (eval (.AST_ASSIGN "x" (.AST_BINARY_OP (.AST_VARIABLE "x") (.AST_NUMBER 1)))
        ⟨[⟨"y", 7⟩, ⟨"x", 1⟩], ""⟩).2.vars.length = 2 :=
  assign_existing_in_place.1 ⟨[⟨"y", 7⟩, ⟨"x", 1⟩], ""⟩ "x"
    (.AST_BINARY_OP (.AST_VARIABLE "x") (.AST_NUMBER 1)) 2 (by decide)
    ⟨⟨"x", 1⟩, by simp, rfl⟩ (by decide)

/-- C5: `eval` of `Variable(n)` exits with the undefined-variable error exactly
when no entry of the store is named `n`; when there is one it returns the value
of the first such entry and changes nothing; after an `eval` of `Assign(n, e)`
that returned `v`, `eval` of `Variable(n)` returns `v`; and the program `print z`
exits with that error having printed nothing. -/
theorem variable_lookup :
    (∀ (m : Machine) (n : String),
      eval (.AST_VARIABLE n) m = (.exit (.undefined_variable n), m) ↔
        ∀ x ∈ m.vars, x.name ≠ n) ∧
    (∀ (m : Machine) (n : String), (∃ x ∈ m.vars, x.name = n) →
      ∃ pre x post, m.vars = pre ++ x :: post ∧ (∀ y ∈ pre, y.name ≠ n) ∧ x.name = n ∧
        eval (.AST_VARIABLE n) m = (.ok x.value, m)) ∧
    (∀ (m m1 : Machine) (n : String) (e : ASTNode) (v : Int),
      eval (.AST_ASSIGN n e) m = (.ok v, m1) → eval (.AST_VARIABLE n) m1 = (.ok v, m1)) ∧
    main "print z\n".toList = ⟨.exit (.undefined_variable "z"), 2, ⟨[], ""⟩⟩ := by
  refine ⟨?_, ?_, ?_, by decide⟩
  · intro m n
    rw [← lookup_eq_none_iff]
    simp only [eval]
    cases h : lookup m.vars n <;> simp
  · intro m n hn
    obtain ⟨pre, x, post, hsplit, hpre, hx⟩ := first_entry m.vars n hn
    refine ⟨pre, x, post, hsplit, hpre, hx, ?_⟩
    simp only [eval]
    rw [hsplit, lookup_first pre post x n hpre hx]
  · intro m m1 n e v h
    simp only [eval] at h
    rcases he : eval e m with ⟨r, m2⟩
    rw [he] at h
    cases r with
    | exit err => simp at h
    | ok w =>
      simp only [Prod.mk.injEq, Result.ok.injEq] at h
      obtain ⟨hw, hm⟩ := h
      subst hw
      subst hm
      simp only [eval, lookup_store_same]

/-- Witness of C5: in the store `[x = 1, x = 9]` the lookup of `x` returns the
value of the first entry, and an assignment `y = x + 1` makes `y` defined. -/
theorem variable_lookup_witness :
    (∃ pre x post, [(⟨"x", 1⟩ : Variable), ⟨"x", 9⟩] = pre ++ x :: post ∧
      (∀ y ∈ pre, y.name ≠ "x") ∧ x.name = "x" ∧
      eval (.AST_VARIABLE "x") ⟨[⟨"x", 1⟩, ⟨"x", 9⟩], ""⟩ =
        (.ok x.value, ⟨[⟨"x", 1⟩, ⟨"x", 9⟩], ""⟩)) ∧
    eval (.AST_VARIABLE "y") ⟨[⟨"x", 1⟩, ⟨"x", 9⟩, ⟨"y", 2⟩], ""⟩ =
      (.ok 2, ⟨[⟨"x", 1⟩, ⟨"x", 9⟩, ⟨"y", 2⟩], ""⟩) :=
  ⟨variable_lookup.2.1 ⟨[⟨"x", 1⟩, ⟨"x", 9⟩], ""⟩ "x" ⟨⟨"x", 1⟩, by simp, rfl⟩,
   variable_lookup.2.2.1 ⟨[⟨"x", 1⟩, ⟨"x", 9⟩], ""⟩ ⟨[⟨"x", 1⟩, ⟨"x", 9⟩, ⟨"y", 2⟩], ""⟩ "y"
     (.AST_BINARY_OP (.AST_VARIABLE "x") (.AST_NUMBER 1)) 2 (by decide)⟩

/-! ## The scanner -/

theorem isspace_ne_nul (c : Char) (h : isspace c = true) : c ≠ '\x00' := by
  rintro rfl; revert h; decide

theorem isdigit_ne_nul (c : Char) (h : isdigit c = true) : c ≠ '\x00' := by
  rintro rfl; revert h; decide

theorem isalpha_ne_nul (c : Char) (h : isalpha c = true) : c ≠ '\x00' := by
  rintro rfl; revert h; decide

theorem isalnum_ne_nul (c : Char) (h : isalnum c = true) : c ≠ '\x00' := by
  rintro rfl; revert h; decide

theorem lexable_ne_nul (c : Char) (h : lexable c = true) : c ≠ '\x00' := by
  rintro rfl; revert h; decide

theorem isalnum_lexable (c : Char) (h : isalnum c = true) : lexable c = true := by
  simp only [isalnum, Bool.or_eq_true] at h
  simp only [lexable, Bool.or_eq_true]
  rcases h with h | h
  · exact Or.inl (Or.inl (Or.inr h))
  · exact Or.inl (Or.inl (Or.inl (Or.inr h)))

theorem isdigit_isalnum (c : Char) (h : isdigit c = true) : isalnum c = true := by
  simp [isalnum, h]

theorem isalpha_isalnum (c : Char) (h : isalpha c = true) : isalnum c = true := by
  simp [isalnum, h]

/-- The identifier prefix the scanner copies is a prefix of the text. -/
theorem ident_take (p : List Char) :
    p.take ((p.takeWhile isalnum).take 63).length = (p.takeWhile isalnum).take 63 := by
  have h1 : (p.takeWhile isalnum).take 63 <+: p :=
    (List.take_prefix _ _).trans (List.takeWhile_prefix _)
  exact (List.prefix_iff_eq_take.1 h1).symm

theorem scan_skip (p rest : List Char) (h : scan p = .skip rest) : consumed p rest := by
  cases p with
  | nil => simp [scan] at h
  | cons c cs =>
    simp only [scan] at h
    split_ifs at h with h0 h1 h2 h3 h4 h5 h6 h7
    simp only [Scan.skip.injEq] at h
    subst h
    exact ⟨[c], by simp, rfl, by simp [lexable, h1]⟩

theorem scan_emit (p rest : List Char) (t : Token) (h : scan p = .emit t rest) :
    consumed p rest ∧ t.type ≠ TOKEN_EOF := by
  cases p with
  | nil => simp [scan] at h
  | cons c cs =>
    simp only [scan] at h
    split_ifs at h with h0 h1 h2 h3 h4 h5 h6 h7
    · simp only [Scan.emit.injEq] at h
      obtain ⟨rfl, rfl⟩ := h
      exact ⟨⟨[c], by simp, rfl, by simp [lexable, h1]⟩, by decide⟩
    · simp only [Scan.emit.injEq] at h
      obtain ⟨rfl, rfl⟩ := h
      refine ⟨⟨(c :: cs).takeWhile isdigit, ?_, (List.takeWhile_append_dropWhile _ _).symm, ?_⟩,
        by simp [number_token]⟩
      · simp [List.takeWhile, h3]
      · intro x hx
        exact isalnum_lexable x (isdigit_isalnum x (List.mem_takeWhile_imp hx))
    · simp only [Scan.emit.injEq] at h
      obtain ⟨rfl, rfl⟩ := h
      refine ⟨⟨(c :: cs).take 5, ?_, (List.take_append_drop _ _).symm, ?_⟩, by decide⟩
      · simp
      · rw [h5]; decide
    · simp only [Scan.emit.injEq] at h
      obtain ⟨rfl, rfl⟩ := h
      refine ⟨⟨((c :: cs).takeWhile isalnum).take 63, ?_, ?_, ?_⟩, by simp [identifier_token]⟩
      · simp [List.takeWhile, isalpha_isalnum c h4]
      · conv_lhs => rw [← List.take_append_drop
          (((c :: cs).takeWhile isalnum).take 63).length (c :: cs)]
        rw [ident_take]
      · intro x hx
        exact isalnum_lexable x (List.mem_takeWhile_imp (List.mem_of_mem_take hx))
    · simp only [Scan.emit.injEq] at h
      obtain ⟨rfl, rfl⟩ := h
      exact ⟨⟨[c], by simp, rfl, by simp [lexable, h6]⟩, by decide⟩
    · simp only [Scan.emit.injEq] at h
      obtain ⟨rfl, rfl⟩ := h
      exact ⟨⟨[c], by simp, rfl, by simp [lexable, h7]⟩, by decide⟩

theorem scan_stop (p : List Char) (h : scan p = .stop) : c_string p = [] := by
  cases p with
  | nil => rfl
  | cons c cs =>
    simp only [scan] at h
    split_ifs at h with h0 h1 h2 h3 h4 h5 h6 h7
    simp [c_string, List.takeWhile, h0]

theorem scan_bad (p : List Char) (c : Char) (h : scan p = .bad c) :
    ∃ cs, p = c :: cs ∧ c ≠ '\x00' ∧ lexable c = false := by
  cases p with
  | nil => simp [scan] at h
  | cons d cs =>
    simp only [scan] at h
    split_ifs at h with h0 h1 h2 h3 h4 h5 h6 h7
    simp only [Scan.bad.injEq] at h
    subst h
    exact ⟨cs, rfl, h0, by simp [lexable, h1, h3, h4, h6, h7]⟩

theorem consumed_length (p rest : List Char) (h : consumed p rest) :
    rest.length < p.length := by
  obtain ⟨d, hd, rfl, _⟩ := h
  have : 0 < d.length := List.length_pos.2 hd
  simp only [List.length_append]
  omega

theorem consumed_c_string (p rest : List Char) (h : consumed p rest) :
    ∃ d, (∀ c ∈ d, lexable c = true) ∧ c_string p = d ++ c_string rest := by
  obtain ⟨d, _, rfl, hlex⟩ := h
  refine ⟨d, hlex, ?_⟩
  unfold c_string
  rw [List.takeWhile_append_of_pos]
  intro c hc
  simpa using lexable_ne_nul c (hlex c hc)

theorem tokenize_loop_fuel (f1 f2 : Nat) (p : List Char)
    (h1 : p.length < f1) (h2 : p.length < f2) :
    tokenize_loop f1 p = tokenize_loop f2 p := by
  induction f1 generalizing f2 p with
  | zero => omega
  | succ f1 ih =>
    cases f2 with
    | zero => omega
    | succ f2 =>
      simp only [tokenize_loop]
      cases hs : scan p with
      | stop => rfl
      | bad c => rfl
      | skip rest =>
        have := consumed_length p rest (scan_skip p rest hs)
        exact ih f2 rest (by omega) (by omega)
      | emit t rest =>
        have := consumed_length p rest (scan_emit p rest t hs).1
        simp only [ih f2 rest (by omega) (by omega)]

/-- The loop of `tokenize`, one trip unrolled. -/
theorem tokenize_unfold (p : List Char) :
    tokenize p =
      match scan p with
      | .stop => .ok [EOF_TOKEN]
      | .skip rest => tokenize rest
      | .emit t rest =>
        match tokenize rest with
        | .ok ts => .ok (t :: ts)
        | .exit e => .exit e
      | .bad c => .exit (.unexpected_character c) := by
  unfold tokenize
  rw [tokenize_loop]
  cases hs : scan p with
  | stop => rfl
  | bad c => rfl
  | skip rest =>
    have := consumed_length p rest (scan_skip p rest hs)
    exact tokenize_loop_fuel _ _ rest (by omega) (by omega)
  | emit t rest =>
    have := consumed_length p rest (scan_emit p rest t hs).1
    simp only [tokenize_loop_fuel p.length (rest.length + 1) rest (by omega) (by omega)]

/-- The outcome of `tokenize`, read off the text: the tokens (ending in the
end-of-input token) when every character before the first NUL is lexable, the
lexing error otherwise. -/
theorem tokenize_outcome (p : List Char) :
    ((∀ c ∈ c_string p, lexable c = true) ∧
      ∃ body, tokenize p = .ok (body ++ [EOF_TOKEN]) ∧ ∀ t ∈ body, t.type ≠ TOKEN_EOF) ∨
    ((∃ c ∈ c_string p, lexable c = false) ∧
      ∃ c, tokenize p = .exit (.unexpected_character c)) := by
  generalize hn : p.length = n
  induction n using Nat.strong_induction_on generalizing p with
  | _ n ih =>
    subst hn
    rw [tokenize_unfold]
    cases hs : scan p with
    | stop =>
      left
      rw [scan_stop p hs]
      exact ⟨by simp, [], rfl, by simp⟩
    | bad c =>
      right
      obtain ⟨cs, rfl, hc, hlex⟩ := scan_bad p c hs
      refine ⟨⟨c, ?_, hlex⟩, c, rfl⟩
      have hb : (c != '\x00') = true := by simpa using hc
      simp [c_string, List.takeWhile_cons, hb]
    | skip rest =>
      have hcons := scan_skip p rest hs
      have hlen := consumed_length p rest hcons
      obtain ⟨d, hd, hcs⟩ := consumed_c_string p rest hcons
      rcases ih rest.length (by omega) rest rfl with ⟨hall, hok⟩ | ⟨⟨c, hc, hlex⟩, hex⟩
      · left
        refine ⟨?_, hok⟩
        intro c hc
        rw [hcs] at hc
        rcases List.mem_append.1 hc with h1 | h1
        · exact hd c h1
        · exact hall c h1
      · right
        exact ⟨⟨c, by rw [hcs]; exact List.mem_append_right _ hc, hlex⟩, hex⟩
    | emit t rest =>
      obtain ⟨hcons, ht⟩ := scan_emit p rest t hs
      have hlen := consumed_length p rest hcons
      obtain ⟨d, hd, hcs⟩ := consumed_c_string p rest hcons
      rcases ih rest.length (by omega) rest rfl with
        ⟨hall, body, hok, hbody⟩ | ⟨⟨c, hc, hlex⟩, c1, hex⟩
      · left
        refine ⟨?_, t :: body, by simp only [hok]; rfl, ?_⟩
        · intro c hc
          rw [hcs] at hc
          rcases List.mem_append.1 hc with h1 | h1
          · exact hd c h1
          · exact hall c h1
        · intro u hu
          rcases List.mem_cons.1 hu with rfl | h1
          · exact ht
          · exact hbody u h1
      · right
        exact ⟨⟨c, by rw [hcs]; exact List.mem_append_right _ hc, hlex⟩, c1, by simp only [hex]⟩

theorem takeWhile_append_stop (f : Char → Bool) (l q : List Char)
    (h : ∃ x ∈ l, f x = false) :
    (l ++ q).takeWhile f = l.takeWhile f ∧ (l ++ q).dropWhile f = l.dropWhile f ++ q := by
  induction l with
  | nil => simp at h
  | cons a l ih =>
    by_cases ha : f a = true
    · obtain ⟨x, hx, hfx⟩ := h
      have hmem : x ∈ l := by
        rcases List.mem_cons.1 hx with rfl | h'
        · rw [ha] at hfx; cases hfx
        · exact h'
      obtain ⟨h1, h2⟩ := ih ⟨x, hmem, hfx⟩
      simp [List.takeWhile_cons, List.dropWhile_cons, ha, h1, h2]
    · simp [List.takeWhile_cons, List.dropWhile_cons, ha]

theorem ends_token_stop (l : List Char) (hne : l ≠ []) (hend : ends_token l) :
    ∃ x ∈ l, isalnum x = false :=
  ⟨l.getLast hne, List.getLast_mem hne, hend _ (List.getLast?_eq_getLast l hne)⟩

theorem print_chars_isalnum : ∀ x ∈ ['p', 'r', 'i', 'n', 't'], isalnum x = true := by decide

theorem take_print_append (l q : List Char) (hne : l ≠ []) (hend : ends_token l) :
    ((l ++ q).take 5 = ['p', 'r', 'i', 'n', 't'] ↔ l.take 5 = ['p', 'r', 'i', 'n', 't']) ∧
    (l.take 5 = ['p', 'r', 'i', 'n', 't'] → (l ++ q).drop 5 = l.drop 5 ++ q) := by
  by_cases hlen : 5 ≤ l.length
  · exact ⟨by rw [List.take_append_of_le_length hlen],
      fun _ => List.drop_append_of_le_length hlen⟩
  · have hlt : l.length < 5 := by omega
    obtain ⟨z, hz, hzf⟩ := ends_token_stop l hne hend
    have h2 : l.take 5 ≠ ['p', 'r', 'i', 'n', 't'] := by
      intro h
      have := congrArg List.length h
      simp only [List.length_take, List.length_cons, List.length_nil] at this
      omega
    have h1 : (l ++ q).take 5 ≠ ['p', 'r', 'i', 'n', 't'] := by
      intro h
      rw [List.take_append_eq_append_take, List.take_of_length_le (by omega)] at h
      have hz1 : z ∈ ['p', 'r', 'i', 'n', 't'] := by
        rw [← h]
        exact List.mem_append_left _ hz
      rw [print_chars_isalnum z hz1] at hzf
      cases hzf
    exact ⟨⟨fun h => absurd h h1, fun h => absurd h h2⟩, fun h => absurd h h2⟩

theorem scan_append (pre q : List Char) (hne : pre ≠ []) (hend : ends_token pre) :
    (∀ r, scan pre = .skip r → scan (pre ++ q) = .skip (r ++ q)) ∧
    (∀ t r, scan pre = .emit t r → scan (pre ++ q) = .emit t (r ++ q)) := by
  obtain ⟨hpt, hpd⟩ := take_print_append pre q hne hend
  obtain ⟨z, hz, hzf⟩ := ends_token_stop pre hne hend
  have hzd : isdigit z = false := by
    cases hd : isdigit z
    · rfl
    · rw [isdigit_isalnum z hd] at hzf; cases hzf
  obtain ⟨htd, hdd⟩ := takeWhile_append_stop isdigit pre q ⟨z, hz, hzd⟩
  obtain ⟨hta, _⟩ := takeWhile_append_stop isalnum pre q ⟨z, hz, hzf⟩
  cases pre with
  | nil => exact absurd rfl hne
  | cons c cs =>
    have hcons : (c :: cs) ++ q = c :: (cs ++ q) := rfl
    constructor
    · intro r h
      simp only [scan] at h
      rw [hcons]
      simp only [scan]
      split_ifs at h with h0 h1 h2 h3 h4 h5 h6 h7
      simp only [Scan.skip.injEq] at h
      subst h
      rw [if_neg h0, if_pos h1, if_neg h2]
    · intro t r h
      simp only [scan] at h
      split_ifs at h with h0 h1 h2 h3 h4 h5 h6 h7
      · simp only [Scan.emit.injEq] at h
        obtain ⟨rfl, rfl⟩ := h
        rw [hcons, scan, if_neg h0, if_pos h1, if_pos h2]
      · simp only [Scan.emit.injEq] at h
        obtain ⟨rfl, rfl⟩ := h
        have hs : strtol (c :: cs ++ q) = strtol (c :: cs) := by
          unfold strtol; rw [htd]
        rw [← hdd, ← hs, hcons]
        simp only [scan, h0, h1, h3, if_true, if_false]
        rfl
      · simp only [Scan.emit.injEq] at h
        obtain ⟨rfl, rfl⟩ := h
        rw [← hpd h5]
        have h5q := hpt.2 h5
        rw [hcons] at h5q ⊢
        simp only [scan, h0, h1, h3, h4, h5q, if_true, if_false]
        rfl
      · simp only [Scan.emit.injEq] at h
        obtain ⟨rfl, rfl⟩ := h
        have h5q : ¬ ((c :: cs) ++ q).take 5 = ['p', 'r', 'i', 'n', 't'] :=
          fun hh => h5 (hpt.1 hh)
        have hk : (((c :: cs).takeWhile isalnum).take 63).length ≤ (c :: cs).length := by
          rw [← ident_take]
          simp only [List.length_take]
          omega
        rw [← List.drop_append_of_le_length hk, ← hta]
        rw [hcons] at h5q ⊢
        simp only [scan, h0, h1, h3, h4, h5q, if_true, if_false]
        rfl
      · simp only [Scan.emit.injEq] at h
        obtain ⟨rfl, rfl⟩ := h
        rw [hcons, scan, if_neg h0, if_neg h1, if_neg h3, if_neg h4, if_pos h6]
      · simp only [Scan.emit.injEq] at h
        obtain ⟨rfl, rfl⟩ := h
        rw [hcons, scan, if_neg h0, if_neg h1, if_neg h3, if_neg h4, if_neg h6, if_pos h7]

theorem consumed_rest (p rest : List Char) (h : consumed p rest)
    (hlex : ∀ c ∈ p, lexable c = true) (hend : ends_token p) :
    (∀ c ∈ rest, lexable c = true) ∧ ends_token rest := by
  obtain ⟨d, _, rfl, _⟩ := h
  refine ⟨fun c hc => hlex c (List.mem_append_right _ hc), ?_⟩
  intro z hz
  apply hend
  rw [List.getLast?_append, hz]
  rfl

theorem scan_lexable (p : List Char) (hne : p ≠ []) (hlex : ∀ c ∈ p, lexable c = true) :
    (∃ r, scan p = .skip r) ∨ (∃ t r, scan p = .emit t r) := by
  cases p with
  | nil => exact absurd rfl hne
  | cons c cs =>
    have hc := hlex c (List.mem_cons_self _ _)
    cases hs : scan (c :: cs) with
    | stop =>
      have := scan_stop _ hs
      have hb : (c != '\x00') = true := by simpa using lexable_ne_nul c hc
      simp [c_string, List.takeWhile_cons, hb] at this
    | bad d =>
      obtain ⟨cs', heq, _, hd⟩ := scan_bad _ d hs
      simp only [List.cons.injEq] at heq
      rw [← heq.1, hc] at hd
      cases hd
    | skip r => exact Or.inl ⟨r, rfl⟩
    | emit t r => exact Or.inr ⟨t, r, rfl⟩

/-- Scanning a text that ends at a token boundary, followed by more text:
the tokens of the first part, then the tokens of the rest. -/
theorem tokenize_append (pre q : List Char) (hlex : ∀ c ∈ pre, lexable c = true)
    (hend : ends_token pre) :
    ∃ body, tokenize pre = .ok (body ++ [EOF_TOKEN]) ∧
      tokenize (pre ++ q) =
        match tokenize q with
        | .ok ts => .ok (body ++ ts)
        | .exit e => .exit e := by
  generalize hn : pre.length = n
  induction n using Nat.strong_induction_on generalizing pre with
  | _ n ih =>
    subst hn
    by_cases hne : pre = []
    · subst hne
      refine ⟨[], rfl, ?_⟩
      simp only [List.nil_append]
      cases tokenize q <;> rfl
    · obtain ⟨hsk, hem⟩ := scan_append pre q hne hend
      rcases scan_lexable pre hne hlex with ⟨r, hs⟩ | ⟨t, r, hs⟩
      · have hcons := scan_skip pre r hs
        obtain ⟨hl, he⟩ := consumed_rest pre r hcons hlex hend
        obtain ⟨body, h1, h2⟩ := ih r.length (consumed_length pre r hcons) r hl he rfl
        refine ⟨body, ?_, ?_⟩
        · rw [tokenize_unfold, hs]; exact h1
        · rw [tokenize_unfold, hsk r hs]; exact h2
      · have hcons := (scan_emit pre r t hs).1
        obtain ⟨hl, he⟩ := consumed_rest pre r hcons hlex hend
        obtain ⟨body, h1, h2⟩ := ih r.length (consumed_length pre r hcons) r hl he rfl
        refine ⟨t :: body, ?_, ?_⟩
        · rw [tokenize_unfold, hs]; simp only [h1]; rfl
        · rw [tokenize_unfold, hem t r hs]; simp only [h2]
          cases tokenize q <;> rfl

/-- At a letter that does not start `print`, with at most 63 alphanumeric
characters up to the next boundary, one trip of the loop writes the
identifier token of the whole run. -/
theorem scan_identifier (run post : List Char) (c : Char) (cs : List Char)
    (hrun : run = c :: cs) (hc : isalpha c = true)
    (halnum : ∀ x ∈ run, isalnum x = true)
    (hprint : run.take 5 ≠ ['p', 'r', 'i', 'n', 't'])
    (hlen : run.length ≤ 63)
    (hpost : ∀ z, post.head? = some z → isalnum z = false) :
    scan (run ++ post) = .emit (identifier_token run) post := by
  have htw : (run ++ post).takeWhile isalnum = run := by
    rw [List.takeWhile_append_of_pos halnum]
    cases post with
    | nil => simp
    | cons z post =>
      have := hpost z rfl
      simp [List.takeWhile_cons, this]
  have hp5 : (run ++ post).take 5 ≠ ['p', 'r', 'i', 'n', 't'] := by
    intro h
    by_cases h5 : 5 ≤ run.length
    · rw [List.take_append_of_le_length h5] at h
      exact hprint h
    · rw [List.take_append_eq_append_take, List.take_of_length_le (by omega)] at h
      cases post with
      | nil =>
        have := congrArg List.length h
        simp at this
        omega
      | cons z post =>
        have hz := hpost z rfl
        obtain ⟨k, hk⟩ : ∃ k, 5 - run.length = k + 1 := ⟨4 - run.length, by omega⟩
        rw [hk, List.take_succ_cons] at h
        have hz1 : z ∈ ['p', 'r', 'i', 'n', 't'] := by
          rw [← h]
          exact List.mem_append_right _ (List.mem_cons_self _ _)
        rw [print_chars_isalnum z hz1] at hz
        cases hz
  have h0 : c ≠ '\x00' := isalpha_ne_nul c hc
  have h1 : ¬ isspace c = true := by
    intro h
    have : ∀ d : Char, isspace d = true → isalpha d = false := by
      intro d hd
      simp only [isspace, Bool.or_eq_true, decide_eq_true_eq] at hd
      rcases hd with ((((rfl | rfl) | rfl) | rfl) | rfl) | rfl <;> decide
    rw [this c h] at hc
    cases hc
  have h3 : ¬ isdigit c = true := by
    intro h
    simp only [isdigit, isalpha, Bool.and_eq_true, Bool.or_eq_true, decide_eq_true_eq] at h hc
    omega
  have hcons : run ++ post = c :: (cs ++ post) := by rw [hrun]; rfl
  have e1 : (c :: (cs ++ post)).takeWhile isalnum = run := by rw [← hcons]; exact htw
  have e2 : ¬ (c :: (cs ++ post)).take 5 = ['p', 'r', 'i', 'n', 't'] := by
    rw [← hcons]; exact hp5
  rw [hcons, scan, if_neg h0, if_neg h1, if_neg h3, if_pos hc, if_neg e2, e1,
    List.take_of_length_le hlen, ← hcons, List.drop_left]

theorem c_string_of_no_nul (source : List Char) (h : '\x00' ∉ source) :
    c_string source = source := by
  unfold c_string
  rw [List.takeWhile_eq_self_iff]
  intro c hc
  have : c ≠ '\x00' := fun hz => h (hz ▸ hc)
  simpa using this

/-- C6: `tokenize` exits with the lexing error exactly when the source string
holds a character that is not whitespace, a digit, a letter, `=` or `+`, and
returns a token sequence exactly when it holds none; it exits in no other way.
The source string is the C string handed to `tokenize`: the characters before
the terminating NUL, which is all of `source` when it holds no NUL.  A source
with `*` in it is rejected. -/
theorem tokenize_fails_iff (source : List Char) :
    ((∃ c, tokenize source = .exit (.unexpected_character c)) ↔
      ∃ c ∈ c_string source, lexable c = false) ∧
    ((∃ tokens, tokenize source = .ok tokens) ↔
      ∀ c ∈ c_string source, lexable c = true) ∧
    (∀ e, tokenize source = .exit e → ∃ c, e = .unexpected_character c) ∧
    ('\x00' ∉ source → c_string source = source) ∧
    tokenize "x = 2 * 3\n".toList = .exit (.unexpected_character '*') := by
  refine ⟨?_, ?_, ?_, c_string_of_no_nul source, by decide⟩
  · rcases tokenize_outcome source with ⟨hall, body, hok, _⟩ | ⟨hbad, hex⟩
    · constructor
      · rintro ⟨c, hc⟩
        rw [hok] at hc
        cases hc
      · rintro ⟨c, hc, hlex⟩
        rw [hall c hc] at hlex
        cases hlex
    · exact ⟨fun _ => hbad, fun _ => hex⟩
  · rcases tokenize_outcome source with ⟨hall, body, hok, _⟩ | ⟨⟨c, hc, hlex⟩, d, hex⟩
    · exact ⟨fun _ => hall, fun _ => ⟨_, hok⟩⟩
    · constructor
      · rintro ⟨tokens, ht⟩
        rw [hex] at ht
        cases ht
      · intro hall
        rw [hall c hc] at hlex
        cases hlex
  · intro e he
    rcases tokenize_outcome source with ⟨_, body, hok, _⟩ | ⟨_, d, hex⟩
    · rw [hok] at he
      cases he
    · rw [hex] at he
      simp only [Result.exit.injEq] at he
      exact ⟨d, he.symm⟩

/-- Witness of C6: the source `y = x - 1` holds no NUL and the character `-`,
so `tokenize` exits with the lexing error. -/
theorem tokenize_fails_iff_witness :
    c_string "y = x - 1".toList = "y = x - 1".toList ∧
    ∃ c, tokenize "y = x - 1".toList = .exit (.unexpected_character c) :=
  ⟨(tokenize_fails_iff "y = x - 1".toList).2.2.2.1 (by decide),
   (tokenize_fails_iff "y = x - 1".toList).1.2 ⟨'-', by decide, by decide⟩⟩

/-- C7: when the source string holds a character that is not whitespace, a
digit, a letter, `=` or `+`, the run exits with the lexing error before any
statement is parsed: the cursor is still `0`, the store and the output are
empty.  So `print 1` followed by a line with `*` prints nothing. -/
theorem lex_error_before_output :
    (∀ source : List Char, (∃ c ∈ c_string source, lexable c = false) →
      ∃ c, main source = ⟨.exit (.unexpected_character c), 0, ⟨[], ""⟩⟩) ∧
    main "print 1\n*".toList = ⟨.exit (.unexpected_character '*'), 0, ⟨[], ""⟩⟩ := by
  refine ⟨?_, by decide⟩
  intro source hbad
  rcases tokenize_outcome source with ⟨hall, _⟩ | ⟨_, c, hc⟩
  · obtain ⟨c, hc, hlex⟩ := hbad
    rw [hall c hc] at hlex
    cases hlex
  · exact ⟨c, by simp only [main, hc]; rfl⟩

/-- Witness of C7: the source `x = 1`, `print x`, `y = x - 1` prints nothing. -/
theorem lex_error_before_output_witness :
    ∃ c, main "x = 1\nprint x\ny = x - 1\n".toList =
      ⟨.exit (.unexpected_character c), 0, ⟨[], ""⟩⟩ :=
  lex_error_before_output.1 "x = 1\nprint x\ny = x - 1\n".toList ⟨'-', by decide, by decide⟩

/-- The tokens `tokenize` writes are some tokens, none of type end-of-input,
followed by the end-of-input token, the last write; for the empty source it is
that token alone.  When they fit the array `tokens`, this is its contents on
return. -/
theorem written_tokens_end_with_eof :
    (∀ (source : List Char) (tokens : List Token), tokenize source = .ok tokens →
      tokens ≠ [] ∧ tokens.getLast? = some EOF_TOKEN ∧
      ∃ body, tokens = body ++ [EOF_TOKEN] ∧ ∀ t ∈ body, t.type ≠ TOKEN_EOF) ∧
    tokenize [] = .ok [EOF_TOKEN] := by
  refine ⟨?_, rfl⟩
  intro source tokens h
  rcases tokenize_outcome source with ⟨_, body, hok, hbody⟩ | ⟨_, d, hex⟩
  · rw [hok] at h
    simp only [Result.ok.injEq] at h
    subst h
    exact ⟨by simp, by simp, body, rfl, hbody⟩
  · rw [hex] at h
    cases h

/-- The tokens written for `x = 5` and a newline. -/
theorem written_tokens_end_with_eof_example :
    [identifier_token ['x'], EQUALS_TOKEN, number_token 5, NEWLINE_TOKEN, EOF_TOKEN] ≠ [] ∧
    [identifier_token ['x'], EQUALS_TOKEN, number_token 5, NEWLINE_TOKEN, EOF_TOKEN].getLast? =
      some EOF_TOKEN ∧
    ∃ body, [identifier_token ['x'], EQUALS_TOKEN, number_token 5, NEWLINE_TOKEN, EOF_TOKEN] =
      body ++ [EOF_TOKEN] ∧ ∀ t ∈ body, t.type ≠ TOKEN_EOF :=
  written_tokens_end_with_eof.1 "x = 5\n".toList _ (by decide)

/-- C9, as stated, fails: a run of 64 letters `a` is alphanumeric, starts with
a letter and not with `print`, yet `tokenize` writes two identifier tokens for
it, of 63 characters and of one, and none with the whole run as lexeme. -/
theorem identifier_run_split_at_63 :
    isalpha 'a' = true ∧ (∀ x ∈ List.replicate 64 'a', isalnum x = true) ∧
    (List.replicate 64 'a').take 5 ≠ ['p', 'r', 'i', 'n', 't'] ∧
    tokenize (List.replicate 64 'a') =
      .ok [identifier_token (List.replicate 63 'a'), identifier_token ['a'], EOF_TOKEN] ∧
    tokenize (List.replicate 64 'a') ≠
      .ok [identifier_token (List.replicate 64 'a'), EOF_TOKEN] := by
  decide

/-- C9, amended: let a run of at most 63 alphanumeric characters start with a
letter and not with `print`, stand after a text `pre` of lexable characters that
is empty or ends in a non-alphanumeric character, and before a text `post` that
is empty or starts with a non-alphanumeric character.  Then the tokens of the
whole are the tokens of `pre`, one identifier token whose lexeme is the run, and
the tokens of `post`. -/
theorem identifier_run_one_token (pre post : List Char) (c : Char) (cs : List Char)
    (hpre : ∀ x ∈ pre, lexable x = true)
    (hbefore : ∀ z, pre.getLast? = some z → isalnum z = false)
    (hc : isalpha c = true)
    (halnum : ∀ x ∈ cs, isalnum x = true)
    (hprint : (c :: cs).take 5 ≠ ['p', 'r', 'i', 'n', 't'])
    (hlen : (c :: cs).length ≤ 63)
    (hafter : ∀ z, post.head? = some z → isalnum z = false) :
    ∃ body, tokenize pre = .ok (body ++ [EOF_TOKEN]) ∧
      tokenize (pre ++ (c :: cs) ++ post) =
        match tokenize post with
        | .ok ts => .ok (body ++ identifier_token (c :: cs) :: ts)
        | .exit e => .exit e := by
  obtain ⟨body, h1, h2⟩ := tokenize_append pre ((c :: cs) ++ post) hpre hbefore
  refine ⟨body, h1, ?_⟩
  have hall : ∀ x ∈ c :: cs, isalnum x = true := by
    intro x hx
    rcases List.mem_cons.1 hx with rfl | h
    · exact isalpha_isalnum _ hc
    · exact halnum x h
  have hs := scan_identifier (c :: cs) post c cs rfl hc hall hprint hlen hafter
  rw [List.append_assoc, h2, tokenize_unfold ((c :: cs) ++ post), hs]
  dsimp only
  cases tokenize post <;> rfl

/-- Witness of C9: in `total = count + 1` the run `count` yields one token. -/
theorem identifier_run_one_token_witness :
    ∃ body, tokenize "total = ".toList = .ok (body ++ [EOF_TOKEN]) ∧
      tokenize ("total = ".toList ++ "count".toList ++ " + 1".toList) =
        match tokenize " + 1".toList with
        | .ok ts => .ok (body ++ identifier_token "count".toList :: ts)
        | .exit e => .exit e :=
  identifier_run_one_token "total = ".toList " + 1".toList 'c' "ount".toList
    (by decide) (by decide) (by decide) (by decide) (by decide) (by decide) (by decide)

/-- C10: at the five characters `print` one trip of the scanner loop writes the
keyword token and resumes right after them, whatever comes next; so the tokens
of `print` followed by any text `s` are the keyword token and then the tokens of
`s`, and `printer` gives the keyword, the identifier `er` and end-of-input. -/
theorem print_prefix_is_keyword :
    (∀ s : List Char, scan ('p' :: 'r' :: 'i' :: 'n' :: 't' :: s) = .emit PRINT_TOKEN s) ∧
    (∀ s : List Char, tokenize ("print".toList ++ s) =
      match tokenize s with
      | .ok ts => .ok (PRINT_TOKEN :: ts)
      | .exit e => .exit e) ∧
    tokenize "printer".toList = .ok [PRINT_TOKEN, identifier_token "er".toList, EOF_TOKEN] := by
  have h : ∀ s : List Char, scan ('p' :: 'r' :: 'i' :: 'n' :: 't' :: s) = .emit PRINT_TOKEN s :=
    fun s => rfl
  refine ⟨h, ?_, by decide⟩
  intro s
  have hu := tokenize_unfold ('p' :: 'r' :: 'i' :: 'n' :: 't' :: s)
  rw [h s] at hu
  exact hu

/-! ## The expression parser -/

theorem get_current_token_append (pre rest : List Token) (t : Token) :
    get_current_token (pre ++ t :: rest) pre.length = t := by
  induction pre with
  | nil => rfl
  | cons a pre ih => simpa [get_current_token] using ih

theorem parse_term_at (pre rest : List Token) (t : Token) (ht : is_term t = true) :
    parse_term (pre ++ t :: rest) pre.length = (.ok (leaf t), pre.length + 1) := by
  have hg := get_current_token_append pre rest t
  simp only [is_term, Bool.or_eq_true, decide_eq_true_eq] at ht
  have hne : t.type ≠ TOKEN_EOF := by
    rcases ht with h | h <;> rw [h] <;> decide
  simp only [parse_term, advance_token, hg, leaf, if_pos hne]
  rcases ht with h | h
  · simp [h]
  · simp [h]

theorem parse_expr_loop_terms (more : List (Token × Token)) :
    ∀ (fuel : Nat) (pre : List Token) (left : ASTNode) (nxt : Token) (rest : List Token),
      (∀ pt ∈ more, pt.1.type = TOKEN_PLUS ∧ is_term pt.2 = true) →
      nxt.type ≠ TOKEN_PLUS → more.length < fuel →
      parse_expr_loop fuel (pre ++ (plus_terms more ++ nxt :: rest)) pre.length left =
        (.ok (List.foldl .AST_BINARY_OP left (more.map fun pt => leaf pt.2)),
          pre.length + 2 * more.length) := by
  induction more with
  | nil =>
    intro fuel pre left nxt rest _ hnxt hfuel
    cases fuel with
    | zero => simp at hfuel
    | succ fuel =>
      simp only [plus_terms, List.nil_append, parse_expr_loop, match_token,
        get_current_token_append, if_neg hnxt]
      rfl
  | cons pt more ih =>
    intro fuel pre left nxt rest hmore hnxt hfuel
    obtain ⟨p, t⟩ := pt
    obtain ⟨hp, ht⟩ := hmore (p, t) (List.mem_cons_self _ _)
    simp only at hp ht
    cases fuel with
    | zero => simp at hfuel
    | succ fuel =>
      have hpe : p.type ≠ TOKEN_EOF := by rw [hp]; decide
      have h1 : get_current_token (pre ++ (plus_terms ((p, t) :: more) ++ nxt :: rest))
          pre.length = p := by
        simpa [plus_terms] using
          get_current_token_append pre (t :: (plus_terms more ++ nxt :: rest)) p
      have h2 : parse_term (pre ++ (plus_terms ((p, t) :: more) ++ nxt :: rest))
          (pre.length + 1) = (.ok (leaf t), pre.length + 1 + 1) := by
        have := parse_term_at (pre ++ [p]) (plus_terms more ++ nxt :: rest) t ht
        simpa [plus_terms] using this
      have hl : (pre ++ [p, t]).length = pre.length + 1 + 1 := by simp
      have h3 := ih fuel (pre ++ [p, t]) (.AST_BINARY_OP left (leaf t)) nxt rest
        (fun q hq => hmore q (List.mem_cons_of_mem _ hq)) hnxt
        (by simp only [List.length_cons] at hfuel; omega)
      have h4 : pre ++ [p, t] ++ (plus_terms more ++ nxt :: rest) =
          pre ++ (plus_terms ((p, t) :: more) ++ nxt :: rest) := by
        simp [plus_terms]
      rw [h4, hl] at h3
      have hm : match_token (pre ++ (plus_terms ((p, t) :: more) ++ nxt :: rest)) pre.length
          TOKEN_PLUS = (true, pre.length + 1) := by
        simp only [match_token, advance_token, h1, if_pos hp, if_pos hpe]
      rw [parse_expr_loop, hm]
      simp only [h2]
      rw [h3]
      simp only [List.map_cons, List.foldl_cons, List.length_cons, Prod.mk.injEq, true_and]
      omega

/-- C2: at the cursor let the tokens be `t_1 p_2 t_2 ... p_n t_n` with every `t_i`
a number or identifier token and every `p_i` a plus token, followed by a token
that is not a plus.  Then `parse_expr` returns the left-nested tree
`BinaryAdd(... BinaryAdd(BinaryAdd(t_1, t_2), t_3) ..., t_n)` of the leaves and
leaves the cursor on that following token.  The tokens of `a + b + c` parse as
`BinaryAdd(BinaryAdd(a, b), c)`. -/
theorem parse_expr_left_nested :
    (∀ (pre : List Token) (first : Token) (more : List (Token × Token)) (nxt : Token)
        (rest : List Token),
      is_term first = true →
      (∀ pt ∈ more, pt.1.type = TOKEN_PLUS ∧ is_term pt.2 = true) →
      nxt.type ≠ TOKEN_PLUS →
      parse_expr (pre ++ first :: (plus_terms more ++ nxt :: rest)) pre.length =
        (.ok (List.foldl .AST_BINARY_OP (leaf first) (more.map fun pt => leaf pt.2)),
          pre.length + (2 * (more.length + 1) - 1))) ∧
    tokenize "a + b + c".toList =
      .ok [identifier_token ['a'], PLUS_TOKEN, identifier_token ['b'], PLUS_TOKEN,
        identifier_token ['c'], EOF_TOKEN] ∧
    parse_expr [identifier_token ['a'], PLUS_TOKEN, identifier_token ['b'], PLUS_TOKEN,
        identifier_token ['c'], EOF_TOKEN] 0 =
      (.ok (.AST_BINARY_OP (.AST_BINARY_OP (.AST_VARIABLE "a") (.AST_VARIABLE "b"))
        (.AST_VARIABLE "c")), 5) := by
  refine ⟨?_, by decide, by decide⟩
  intro pre first more nxt rest hfirst hmore hnxt
  have h1 := parse_term_at pre (plus_terms more ++ nxt :: rest) first hfirst
  have h2 := parse_expr_loop_terms more
    ((pre ++ first :: (plus_terms more ++ nxt :: rest)).length + 1) (pre ++ [first])
    (leaf first) nxt rest hmore hnxt (by
      simp only [List.length_append, List.length_cons]
      have : (plus_terms more).length = 2 * more.length := by
        clear h1 hmore
        induction more with
        | nil => rfl
        | cons pt more ih => obtain ⟨p, t⟩ := pt; simp [plus_terms, ih]; omega
      omega)
  have h3 : pre ++ [first] ++ (plus_terms more ++ nxt :: rest) =
      pre ++ first :: (plus_terms more ++ nxt :: rest) := by simp
  rw [h3] at h2
  simp only [List.length_append, List.length_cons, List.length_nil] at h2
  simp only [parse_expr, h1]
  simp only [List.length_append, List.length_cons]
  rw [h2]
  simp only [Prod.mk.injEq, true_and]
  omega

/-- Witness of C2: the tokens of `x = 1 + y + 2` and a newline, cursor on `1`. -/
theorem parse_expr_left_nested_witness :
    parse_expr ([identifier_token ['x'], EQUALS_TOKEN] ++ number_token 1 ::
        (plus_terms [(PLUS_TOKEN, identifier_token ['y']), (PLUS_TOKEN, number_token 2)] ++
          NEWLINE_TOKEN :: [EOF_TOKEN])) 2 =
      (.ok (.AST_BINARY_OP (.AST_BINARY_OP (.AST_NUMBER 1) (.AST_VARIABLE "y"))
        (.AST_NUMBER 2)), 7) :=
  parse_expr_left_nested.1 [identifier_token ['x'], EQUALS_TOKEN] (number_token 1)
    [(PLUS_TOKEN, identifier_token ['y']), (PLUS_TOKEN, number_token 2)] NEWLINE_TOKEN
    [EOF_TOKEN] (by decide) (by decide) (by decide)

/-! ## The driver loop and the reference semantics -/

theorem main_loop_eq_exec (fuel : Nat) (tokens : List Token) :
    ∀ (cur : Nat) (m : Machine) (stmts : List ASTNode),
      parse_program fuel tokens cur = .ok stmts →
      (main_loop fuel tokens cur m).status = (exec stmts m).1 ∧
      (main_loop fuel tokens cur m).machine = (exec stmts m).2 := by
  induction fuel with
  | zero => intro cur m stmts h; simp [parse_program] at h
  | succ fuel ih =>
    intro cur m stmts h
    simp only [parse_program] at h
    simp only [main_loop]
    split_ifs at h with h1 h2
    · rw [if_pos h1, if_pos h2]
      rcases hp : parse_stmt tokens cur with ⟨r, cur1⟩
      rw [hp] at h
      cases r with
      | exit e => simp at h
      | ok stmt =>
        simp only at h
        cases hq : parse_program fuel tokens cur1 with
        | exit e => rw [hq] at h; simp at h
        | ok rest =>
          rw [hq] at h
          simp only [Result.ok.injEq] at h
          subst h
          simp only [exec]
          rcases he : eval stmt m with ⟨r1, m1⟩
          cases r1 with
          | exit e => exact ⟨rfl, rfl⟩
          | ok v => exact ih cur1 m1 rest hq
    · rw [if_pos h1, if_neg h2]
      exact ih _ m stmts h
    · rw [if_neg h1]
      simp only [Result.ok.injEq] at h
      subst h
      exact ⟨rfl, rfl⟩

theorem to_int_idem (a : Int) : to_int (to_int a) = to_int a := by
  unfold to_int; omega

theorem to_int_add_both (a b : Int) : to_int (to_int a + to_int b) = to_int (a + b) := by
  unfold to_int; omega

theorem foldl_to_int (tv : ASTNode → Int) (rest : List ASTNode) (a : Int) :
    to_int (rest.foldl (fun acc u => to_int (acc + tv u)) a) =
      to_int (a + (rest.map tv).sum) := by
  induction rest generalizing a with
  | nil => simp
  | cons u rest ih =>
    simp only [List.foldl_cons, List.map_cons, List.sum_cons]
    rw [ih, to_int_add_left, Int.add_assoc]

theorem foldl_to_int_ne_nil (tv : ASTNode → Int) (rest : List ASTNode) (a : Int)
    (h : rest ≠ []) :
    rest.foldl (fun acc u => to_int (acc + tv u)) a = to_int (a + (rest.map tv).sum) := by
  induction rest generalizing a with
  | nil => exact absurd rfl h
  | cons u rest ih =>
    by_cases hr : rest = []
    · subst hr; simp
    · simp only [List.foldl_cons, List.map_cons, List.sum_cons]
      rw [ih _ hr, to_int_add_left, Int.add_assoc]

theorem terms_ne_nil (e : ASTNode) : terms e ≠ [] := by
  induction e with
  | AST_BINARY_OP left right ihl _ => simp [terms, ihl]
  | AST_NUMBER n => simp [terms]
  | AST_VARIABLE name => simp [terms]
  | AST_ASSIGN name value _ => simp [terms]
  | AST_PRINT expr _ => simp [terms]

theorem spec_value_binary_op (b : String → Int) (l r : ASTNode) :
    spec_value b (.AST_BINARY_OP l r) = to_int (spec_value b l + spec_value b r) := by
  obtain ⟨t, rl, hl⟩ := List.exists_cons_of_ne_nil (terms_ne_nil l)
  obtain ⟨u, rr, hr⟩ := List.exists_cons_of_ne_nil (terms_ne_nil r)
  simp only [spec_value, terms, hl, hr, List.cons_append]
  rw [foldl_to_int_ne_nil (term_value b) (rl ++ u :: rr) _ (by simp),
    ← to_int_add_both (List.foldl _ _ rl), foldl_to_int, foldl_to_int, to_int_add_both]
  congr 1
  simp only [List.map_append, List.map_cons, List.sum_append, List.sum_cons]
  omega

theorem lookup_store_other (vs : List Variable) (n x : String) (v : Int) (h : x ≠ n) :
    lookup (store vs n v) x = lookup vs x := by
  induction vs with
  | nil => simp [store, lookup, Ne.symm h]
  | cons w vs ih =>
    by_cases hw : w.name = n
    · have hwx : w.name ≠ x := by rw [hw]; exact Ne.symm h
      simp [store, lookup, hw, Ne.symm h, hwx]
    · by_cases hx : w.name = x
      · simp only [store, if_neg hw, lookup, if_pos hx]
      · simp only [store, if_neg hw, lookup, if_neg hx, ih]

theorem eval_uses_only (defined : List String) (b : String → Int) (m : Machine)
    (hagree : ∀ x ∈ defined, lookup m.vars x = some (b x)) (e : ASTNode)
    (he : uses_only defined e = true) :
    eval e m = (.ok (spec_value b e), m) := by
  induction e with
  | AST_NUMBER n => rfl
  | AST_VARIABLE name =>
    simp only [uses_only, decide_eq_true_eq] at he
    simp only [eval, hagree name he]
    rfl
  | AST_BINARY_OP left right ihl ihr =>
    simp only [uses_only, Bool.and_eq_true] at he
    simp only [eval, ihl he.1, ihr he.2, spec_value_binary_op]
  | AST_ASSIGN name value _ => simp [uses_only] at he
  | AST_PRINT expr _ => simp [uses_only] at he

theorem exec_well_scoped (stmts : List ASTNode) :
    ∀ (defined : List String) (b : String → Int) (m : Machine),
      (∀ x ∈ defined, lookup m.vars x = some (b x)) →
      well_scoped defined stmts = true →
      (exec stmts m).1 = .ok () ∧
      (exec stmts m).2.output = m.output ++ spec_output b stmts := by
  induction stmts with
  | nil =>
    intro defined b m _ _
    exact ⟨rfl, by simp [exec, spec_output]⟩
  | cons stmt stmts ih =>
    intro defined b m hagree hws
    cases stmt with
    | AST_NUMBER n => simp [well_scoped] at hws
    | AST_VARIABLE name => simp [well_scoped] at hws
    | AST_BINARY_OP left right => simp [well_scoped] at hws
    | AST_ASSIGN name e =>
      simp only [well_scoped, Bool.and_eq_true] at hws
      have hev := eval_uses_only defined b m hagree e hws.1
      have hagree1 : ∀ x ∈ name :: defined,
          lookup (store m.vars name (spec_value b e)) x =
            some (bind_var b name (spec_value b e) x) := by
        intro x hx
        by_cases hxn : x = name
        · subst hxn
          simp [bind_var, lookup_store_same]
        · rw [lookup_store_other _ _ _ _ hxn]
          simp only [bind_var, if_neg hxn]
          rcases List.mem_cons.1 hx with h | h
          · exact absurd h hxn
          · exact hagree x h
      have := ih (name :: defined) (bind_var b name (spec_value b e))
        { m with vars := store m.vars name (spec_value b e) } hagree1 hws.2
      simp only [exec, eval, hev, spec_output]
      exact this
    | AST_PRINT e =>
      simp only [well_scoped, Bool.and_eq_true] at hws
      have hev := eval_uses_only defined b m hagree e hws.1
      have := ih defined b
        { m with output := m.output ++ toString (spec_value b e) ++ "\n" } hagree hws.2
      simp only [exec, eval, hev, spec_output]
      refine ⟨this.1, ?_⟩
      rw [this.2]
      simp only [String.append_assoc]

/-! ## The fuel of the parser and driver loops is enough -/

theorem get_current_token_past (tokens : List Token) (cur : Nat) (h : tokens.length ≤ cur) :
    get_current_token tokens cur = ZERO_TOKEN := by
  simp [get_current_token, List.getD_eq_getElem?_getD, List.getElem?_eq_none h]

theorem cursor_in_range (tokens : List Token) (cur : Nat)
    (h : (get_current_token tokens cur).type ≠ TOKEN_NUMBER) : cur < tokens.length := by
  by_contra hlt
  rw [get_current_token_past tokens cur (by omega)] at h
  exact h rfl

theorem parse_term_ok (tokens : List Token) (cur : Nat) (e : ASTNode) (cur1 : Nat)
    (h : parse_term tokens cur = (.ok e, cur1)) : cur1 = cur + 1 ∧ is_expr e = true := by
  simp only [parse_term, advance_token] at h
  by_cases h1 : (get_current_token tokens cur).type = TOKEN_NUMBER
  · have hne : (get_current_token tokens cur).type ≠ TOKEN_EOF := by rw [h1]; decide
    rw [if_pos h1, if_pos hne] at h
    simp only [Prod.mk.injEq, Result.ok.injEq] at h
    exact ⟨h.2.symm, by rw [← h.1]; rfl⟩
  · by_cases h2 : (get_current_token tokens cur).type = TOKEN_IDENTIFIER
    · have hne : (get_current_token tokens cur).type ≠ TOKEN_EOF := by rw [h2]; decide
      rw [if_neg h1, if_pos h2, if_pos hne] at h
      simp only [Prod.mk.injEq, Result.ok.injEq] at h
      exact ⟨h.2.symm, by rw [← h.1]; rfl⟩
    · rw [if_neg h1, if_neg h2] at h
      simp at h

theorem parse_term_exit (tokens : List Token) (cur : Nat) (err : Fatal) (cur1 : Nat)
    (h : parse_term tokens cur = (.exit err, cur1)) : err ≠ .out_of_fuel ∧ cur1 = cur := by
  simp only [parse_term] at h
  split_ifs at h
  · simp at h
  · simp at h
  · simp only [Prod.mk.injEq, Result.exit.injEq] at h
    rw [← h.1]
    exact ⟨by simp, h.2.symm⟩

theorem parse_expr_loop_spec (fuel : Nat) (tokens : List Token) :
    ∀ (cur : Nat) (left : ASTNode) (r : Result ASTNode) (cur1 : Nat),
      tokens.length - cur < fuel →
      parse_expr_loop fuel tokens cur left = (r, cur1) →
      r ≠ .exit .out_of_fuel ∧ cur ≤ cur1 ∧
      ∀ e, r = .ok e → is_expr left = true → is_expr e = true := by
  induction fuel with
  | zero => intro cur left r cur1 h; omega
  | succ fuel ih =>
    intro cur left r cur1 h hres
    simp only [parse_expr_loop, match_token, advance_token] at hres
    by_cases hp : (get_current_token tokens cur).type = TOKEN_PLUS
    · have hlt := cursor_in_range tokens cur (by rw [hp]; decide)
      have hne : (get_current_token tokens cur).type ≠ TOKEN_EOF := by rw [hp]; decide
      rw [if_pos hp, if_pos hne] at hres
      simp only at hres
      rcases ht : parse_term tokens (cur + 1) with ⟨rt, cur2⟩
      rw [ht] at hres
      cases rt with
      | exit err =>
        simp only [Prod.mk.injEq] at hres
        obtain ⟨h1, h2⟩ := parse_term_exit tokens (cur + 1) err cur2 ht
        obtain ⟨rfl, rfl⟩ := hres
        exact ⟨by simpa using h1, by omega, by simp⟩
      | ok right =>
        obtain ⟨hc, hr⟩ := parse_term_ok tokens (cur + 1) right cur2 ht
        subst hc
        simp only at hres
        obtain ⟨h1, h2, h3⟩ := ih (cur + 1 + 1) (.AST_BINARY_OP left right) r cur1
          (by omega) hres
        exact ⟨h1, by omega, fun e he hl => h3 e he (by simp [is_expr, hl, hr])⟩
    · rw [if_neg hp] at hres
      simp only [Prod.mk.injEq] at hres
      obtain ⟨rfl, rfl⟩ := hres
      exact ⟨by simp, Nat.le_refl _, fun e he hl => by
        simp only [Result.ok.injEq] at he; rw [← he]; exact hl⟩

theorem parse_expr_spec (tokens : List Token) (cur : Nat) (r : Result ASTNode) (cur1 : Nat)
    (h : parse_expr tokens cur = (r, cur1)) :
    r ≠ .exit .out_of_fuel ∧ cur ≤ cur1 ∧
    ∀ e, r = .ok e → cur < cur1 ∧ is_expr e = true := by
  simp only [parse_expr] at h
  rcases ht : parse_term tokens cur with ⟨rt, cur2⟩
  rw [ht] at h
  cases rt with
  | exit err =>
    simp only [Prod.mk.injEq] at h
    obtain ⟨h1, h2⟩ := parse_term_exit tokens cur err cur2 ht
    obtain ⟨rfl, rfl⟩ := h
    exact ⟨by simpa using h1, by omega, by simp⟩
  | ok left =>
    obtain ⟨hc, hl⟩ := parse_term_ok tokens cur left cur2 ht
    subst hc
    simp only at h
    obtain ⟨h1, h2, h3⟩ := parse_expr_loop_spec (tokens.length + 1) tokens (cur + 1) left r cur1
      (by omega) h
    exact ⟨h1, by omega, fun e he => ⟨by omega, h3 e he hl⟩⟩

theorem skip_newlines_spec (fuel : Nat) (tokens : List Token) :
    ∀ cur : Nat, tokens.length - cur < fuel →
      ∃ cur1, skip_newlines fuel tokens cur = some cur1 ∧ cur ≤ cur1 ∧
        (get_current_token tokens cur1).type ≠ TOKEN_NEWLINE := by
  induction fuel with
  | zero => intro cur h; omega
  | succ fuel ih =>
    intro cur h
    simp only [skip_newlines, advance_token]
    by_cases hn : (get_current_token tokens cur).type = TOKEN_NEWLINE
    · have hlt := cursor_in_range tokens cur (by rw [hn]; decide)
      have hne : (get_current_token tokens cur).type ≠ TOKEN_EOF := by rw [hn]; decide
      rw [if_pos hn, if_pos hne]
      obtain ⟨cur1, h1, h2, h3⟩ := ih (cur + 1) (by omega)
      exact ⟨cur1, h1, by omega, h3⟩
    · rw [if_neg hn]
      exact ⟨cur, rfl, Nat.le_refl _, hn⟩

/-- What `parse_stmt` returns: never the fuel marker; the cursor does not move
back; on success the cursor has moved on and the tree is an assignment or a
print of an expression tree. -/
theorem parse_stmt_spec (tokens : List Token) (cur : Nat) (r : Result ASTNode) (cur1 : Nat)
    (h : parse_stmt tokens cur = (r, cur1)) :
    r ≠ .exit .out_of_fuel ∧ cur ≤ cur1 ∧
    ∀ s, r = .ok s → cur < cur1 ∧
      ((∃ name e, s = .AST_ASSIGN name e ∧ is_expr e = true) ∨
        (∃ e, s = .AST_PRINT e ∧ is_expr e = true)) := by
  obtain ⟨c0, hs, hle, _⟩ := skip_newlines_spec (tokens.length + 1) tokens cur (by omega)
  simp only [parse_stmt, hs] at h
  by_cases hi : (get_current_token tokens c0).type = TOKEN_IDENTIFIER
  · rw [if_pos hi] at h
    simp only [parse_assign, match_token, advance_token] at h
    have hne : (get_current_token tokens c0).type ≠ TOKEN_EOF := by rw [hi]; decide
    rw [if_neg (not_not.2 hi), if_pos hne] at h
    by_cases he : (get_current_token tokens (c0 + 1)).type = TOKEN_EQUALS
    · have hne1 : (get_current_token tokens (c0 + 1)).type ≠ TOKEN_EOF := by rw [he]; decide
      rw [if_pos he, if_pos hne1] at h
      simp only at h
      rcases hx : parse_expr tokens (c0 + 1 + 1) with ⟨rx, cx⟩
      rw [hx] at h
      obtain ⟨h1, h2, h3⟩ := parse_expr_spec tokens (c0 + 1 + 1) rx cx hx
      cases rx with
      | exit err =>
        simp only [Prod.mk.injEq] at h
        obtain ⟨rfl, rfl⟩ := h
        exact ⟨h1, by omega, by simp⟩
      | ok value =>
        simp only [Prod.mk.injEq] at h
        obtain ⟨rfl, rfl⟩ := h
        refine ⟨by simp, by omega, ?_⟩
        intro s hs'
        simp only [Result.ok.injEq] at hs'
        exact ⟨by omega, Or.inl ⟨_, value, hs'.symm, (h3 value rfl).2⟩⟩
    · rw [if_neg he] at h
      simp only [Prod.mk.injEq] at h
      obtain ⟨rfl, rfl⟩ := h
      exact ⟨by simp, by omega, by simp⟩
  · rw [if_neg hi] at h
    by_cases hp : (get_current_token tokens c0).type = TOKEN_PRINT
    · rw [if_pos hp] at h
      simp only [parse_print, match_token, advance_token] at h
      have hne : (get_current_token tokens c0).type ≠ TOKEN_EOF := by rw [hp]; decide
      rw [if_pos hp, if_pos hne] at h
      simp only at h
      rcases hx : parse_expr tokens (c0 + 1) with ⟨rx, cx⟩
      rw [hx] at h
      obtain ⟨h1, h2, h3⟩ := parse_expr_spec tokens (c0 + 1) rx cx hx
      cases rx with
      | exit err =>
        simp only [Prod.mk.injEq] at h
        obtain ⟨rfl, rfl⟩ := h
        exact ⟨h1, by omega, by simp⟩
      | ok expr =>
        simp only [Prod.mk.injEq] at h
        obtain ⟨rfl, rfl⟩ := h
        refine ⟨by simp, by omega, ?_⟩
        intro s hs'
        simp only [Result.ok.injEq] at hs'
        exact ⟨by omega, Or.inr ⟨expr, hs'.symm, (h3 expr rfl).2⟩⟩
    · rw [if_neg hp] at h
      simp only [Prod.mk.injEq] at h
      obtain ⟨rfl, rfl⟩ := h
      exact ⟨by simp, by omega, by simp⟩



theorem parse_stmt_ok_in_range (tokens : List Token) (cur : Nat) (s : ASTNode) (cur1 : Nat)
    (h : parse_stmt tokens cur = (.ok s, cur1)) : cur < tokens.length := by
  by_contra hlt
  have hz := get_current_token_past tokens cur (by omega)
  have hs : skip_newlines (tokens.length + 1) tokens cur = some cur := by
    simp only [skip_newlines, hz]
    rfl
  simp only [parse_stmt, hs, hz] at h
  rw [if_neg (by decide), if_neg (by decide)] at h
  simp at h

theorem parse_program_fuel (f : Nat) (tokens : List Token) :
    ∀ (cur : Nat) (stmts : List ASTNode) (g : Nat),
      parse_program f tokens cur = .ok stmts → tokens.length - cur < g →
      parse_program g tokens cur = .ok stmts := by
  induction f with
  | zero => intro cur stmts g h; simp [parse_program] at h
  | succ f ih =>
    intro cur stmts g h hg
    cases g with
    | zero => omega
    | succ g =>
      simp only [parse_program] at h ⊢
      by_cases h1 : (get_current_token tokens cur).type = TOKEN_EOF
      · rw [if_neg (not_not.2 h1)] at h ⊢
        exact h
      · rw [if_pos h1] at h ⊢
        by_cases h2 : (get_current_token tokens cur).type = TOKEN_NEWLINE
        · rw [if_neg (not_not.2 h2)] at h ⊢
          have hlt := cursor_in_range tokens cur (by rw [h2]; decide)
          have hadv : advance_token tokens cur = cur + 1 := by
            simp only [advance_token, if_pos h1]
          rw [hadv] at h ⊢
          exact ih (cur + 1) stmts g h (by omega)
        · rw [if_pos h2] at h ⊢
          rcases hp : parse_stmt tokens cur with ⟨r, cur1⟩
          rw [hp] at h
          obtain ⟨_, _, h5⟩ := parse_stmt_spec tokens cur r cur1 hp
          cases r with
          | exit e => simp at h
          | ok stmt =>
            simp only at h ⊢
            have hlt := parse_stmt_ok_in_range tokens cur stmt cur1 hp
            have hadv := (h5 stmt rfl).1
            cases hq : parse_program f tokens cur1 with
            | exit e => rw [hq] at h; simp at h
            | ok rest =>
              rw [hq] at h
              rw [ih cur1 rest g hq (by omega)]
              exact h

theorem eval_exit_kind (e : ASTNode) :
    ∀ (m : Machine) (err : Fatal), (eval e m).1 = .exit err →
      ∃ name, err = .undefined_variable name := by
  induction e with
  | AST_NUMBER n => intro m err h; simp [eval] at h
  | AST_VARIABLE name =>
    intro m err h
    simp only [eval] at h
    cases hl : lookup m.vars name with
    | some v => rw [hl] at h; simp at h
    | none =>
      rw [hl] at h
      simp only [Result.exit.injEq] at h
      exact ⟨name, h.symm⟩
  | AST_BINARY_OP left right ihl ihr =>
    intro m err h
    simp only [eval] at h
    rcases h1 : eval left m with ⟨r1, m1⟩
    rw [h1] at h
    cases r1 with
    | exit e1 => exact ihl m err (by rw [h1]; exact h)
    | ok a =>
      simp only at h
      rcases h2 : eval right m1 with ⟨r2, m2⟩
      rw [h2] at h
      cases r2 with
      | exit e2 => exact ihr m1 err (by rw [h2]; exact h)
      | ok b => simp at h
  | AST_ASSIGN name value ih =>
    intro m err h
    simp only [eval] at h
    rcases h1 : eval value m with ⟨r1, m1⟩
    rw [h1] at h
    cases r1 with
    | exit e1 => exact ih m err (by rw [h1]; exact h)
    | ok a => simp at h
  | AST_PRINT expr ih =>
    intro m err h
    simp only [eval] at h
    rcases h1 : eval expr m with ⟨r1, m1⟩
    rw [h1] at h
    cases r1 with
    | exit e1 => exact ih m err (by rw [h1]; exact h)
    | ok a => simp at h

theorem main_loop_total (fuel : Nat) (tokens : List Token) :
    ∀ (cur : Nat) (m : Machine), tokens.length - cur < fuel →
      (main_loop fuel tokens cur m).status ≠ .exit .out_of_fuel := by
  induction fuel with
  | zero => intro cur m h; omega
  | succ fuel ih =>
    intro cur m h
    simp only [main_loop]
    by_cases h1 : (get_current_token tokens cur).type = TOKEN_EOF
    · rw [if_neg (not_not.2 h1)]
      simp
    · rw [if_pos h1]
      by_cases h2 : (get_current_token tokens cur).type = TOKEN_NEWLINE
      · rw [if_neg (not_not.2 h2)]
        have hlt := cursor_in_range tokens cur (by rw [h2]; decide)
        have hadv : advance_token tokens cur = cur + 1 := by
          simp only [advance_token, if_pos h1]
        rw [hadv]
        exact ih (cur + 1) m (by omega)
      · rw [if_pos h2]
        rcases hp : parse_stmt tokens cur with ⟨r, cur1⟩
        obtain ⟨h3, h4, h5⟩ := parse_stmt_spec tokens cur r cur1 hp
        cases r with
        | exit e => simpa using h3
        | ok stmt =>
          simp only
          rcases he : eval stmt m with ⟨r1, m1⟩
          cases r1 with
          | exit e =>
            obtain ⟨name, hn⟩ := eval_exit_kind stmt m e (by rw [he])
            simp [hn]
          | ok v =>
            have hlt := parse_stmt_ok_in_range tokens cur stmt cur1 hp
            have := (h5 stmt rfl).1
            exact ih cur1 m1 (by omega)

/-- The run never ends on the fuel marker of the embedding. -/
theorem main_total (source : List Char) : (main source).status ≠ .exit .out_of_fuel := by
  simp only [main]
  rcases tokenize_outcome source with ⟨_, body, hok, _⟩ | ⟨_, c, hex⟩
  · rw [hok]
    exact main_loop_total _ _ 0 INITIAL (by omega)
  · rw [hex]
    simp

/-! ## Number tokens -/

theorem isdigit_not_isspace (c : Char) (h : isdigit c = true) : ¬ isspace c = true := by
  intro hs
  have : ∀ d : Char, isspace d = true → isdigit d = false := by
    intro d hd
    simp only [isspace, Bool.or_eq_true, decide_eq_true_eq] at hd
    rcases hd with ((((rfl | rfl) | rfl) | rfl) | rfl) | rfl <;> decide
  rw [this c hs] at h
  cases h

/-- At a digit run that denotes an `int` value, one trip of the loop writes the
number token of that value. -/
theorem scan_number (post : List Char) (d : Char) (ds : List Char)
    (hd : isdigit d = true) (hds : ∀ x ∈ ds, isdigit x = true)
    (hafter : ∀ z, post.head? = some z → isdigit z = false)
    (hval : decimal_value (d :: ds) ≤ 2147483647) :
    scan ((d :: ds) ++ post) =
      .emit ⟨TOKEN_NUMBER, toString (decimal_value (d :: ds)), (decimal_value (d :: ds) : Int)⟩
        post := by
  have hall : ∀ x ∈ d :: ds, isdigit x = true := by
    intro x hx
    rcases List.mem_cons.1 hx with rfl | h
    · exact hd
    · exact hds x h
  have htw : ((d :: ds) ++ post).takeWhile isdigit = d :: ds := by
    rw [List.takeWhile_append_of_pos hall]
    cases post with
    | nil => simp
    | cons z post =>
      have := hafter z rfl
      simp [List.takeWhile_cons, this]
  have hdw : ((d :: ds) ++ post).dropWhile isdigit = post := by
    rw [List.dropWhile_append_of_pos hall]
    cases post with
    | nil => simp
    | cons z post =>
      have := hafter z rfl
      simp [List.dropWhile_cons, this]
  have hv : to_int (strtol ((d :: ds) ++ post)) = (decimal_value (d :: ds) : Int) := by
    unfold strtol
    rw [htw]
    unfold to_int LONG_MAX
    have h1 : ((decimal_value (d :: ds) : Nat) : Int) ≤ 2147483647 := by exact_mod_cast hval
    have h0 : (0 : Int) ≤ (decimal_value (d :: ds) : Nat) := Int.ofNat_nonneg _
    rw [min_eq_left (by omega)]
    omega
  have h0 : d ≠ '\x00' := isdigit_ne_nul d hd
  have h1 : ¬ isspace d = true := isdigit_not_isspace d hd
  have hcons : (d :: ds) ++ post = d :: (ds ++ post) := rfl
  rw [hcons] at htw hdw hv
  rw [hcons, scan, if_neg h0, if_neg h1, if_pos hd, hv, hdw]
  rfl

/-- C11, as stated, fails twice.  The digit run `2147483648` denotes a value
outside `int`: its token has the value `-2147483648` and the lexeme
`-2147483648`.  The maximal digit run `1` of `x1` belongs to an identifier: no
number token is written for it. -/
theorem number_run_not_its_value :
    decimal_value "2147483648".toList = 2147483648 ∧
    tokenize "2147483648".toList =
      .ok [⟨TOKEN_NUMBER, "-2147483648", -2147483648⟩, EOF_TOKEN] ∧
    tokenize "x1".toList = .ok [identifier_token "x1".toList, EOF_TOKEN] := by
  decide

/-- C11, amended: let a run of decimal digits that denotes a value of at most
`2147483647` stand after a text `pre` of lexable characters that is empty or
ends in a non-alphanumeric character, and before a text `post` that is empty or
starts with a non-digit.  Then the tokens of the whole are the tokens of `pre`,
one number token whose value is the number the digits denote in base 10 and
whose lexeme is the decimal rendering of that number, and the tokens of `post`.
The run `007` gives the value `7` and the lexeme `7`. -/
theorem number_run_one_token :
    (∀ (pre post : List Char) (d : Char) (ds : List Char),
      (∀ x ∈ pre, lexable x = true) →
      (∀ z, pre.getLast? = some z → isalnum z = false) →
      isdigit d = true → (∀ x ∈ ds, isdigit x = true) →
      (∀ z, post.head? = some z → isdigit z = false) →
      decimal_value (d :: ds) ≤ 2147483647 →
      ∃ body, tokenize pre = .ok (body ++ [EOF_TOKEN]) ∧
        tokenize (pre ++ (d :: ds) ++ post) =
          match tokenize post with
          | .ok ts =>
            .ok (body ++ ⟨TOKEN_NUMBER, toString (decimal_value (d :: ds)),
              (decimal_value (d :: ds) : Int)⟩ :: ts)
          | .exit e => .exit e) ∧
    tokenize "007".toList = .ok [⟨TOKEN_NUMBER, "7", 7⟩, EOF_TOKEN] := by
  refine ⟨?_, by decide⟩
  intro pre post d ds hpre hbefore hd hds hafter hval
  obtain ⟨body, h1, h2⟩ := tokenize_append pre ((d :: ds) ++ post) hpre hbefore
  refine ⟨body, h1, ?_⟩
  have hs := scan_number post d ds hd hds hafter hval
  rw [List.append_assoc, h2, tokenize_unfold ((d :: ds) ++ post), hs]
  dsimp only
  cases tokenize post <;> rfl

/-- Witness of C11: in `n = 0042 + k` the run `0042` yields the number token with
value `42` and lexeme `42`. -/
theorem number_run_one_token_witness :
    ∃ body, tokenize "n = ".toList = .ok (body ++ [EOF_TOKEN]) ∧
      tokenize ("n = ".toList ++ "0042".toList ++ " + k".toList) =
        match tokenize " + k".toList with
        | .ok ts => .ok (body ++ ⟨TOKEN_NUMBER, "42", 42⟩ :: ts)
        | .exit e => .exit e :=
  number_run_one_token.1 "n = ".toList " + k".toList '0' "042".toList
    (by decide) (by decide) (by decide) (by decide) (by decide) (by decide)

/-! ## Parse errors -/

theorem advance_token_of_ne_eof (tokens : List Token) (cur : Nat)
    (h : (get_current_token tokens cur).type ≠ TOKEN_EOF) :
    advance_token tokens cur = cur + 1 := by
  simp only [advance_token, if_pos h]

theorem skip_newlines_run (tokens : List Token) (k : Nat) :
    ∀ (fuel cur : Nat), k < fuel →
      (∀ i < k, (get_current_token tokens (cur + i)).type = TOKEN_NEWLINE) →
      (get_current_token tokens (cur + k)).type ≠ TOKEN_NEWLINE →
      skip_newlines fuel tokens cur = some (cur + k) := by
  induction k with
  | zero =>
    intro fuel cur hf _ hk
    cases fuel with
    | zero => omega
    | succ fuel => simp only [skip_newlines, Nat.add_zero] at hk ⊢; rw [if_neg hk]
  | succ k ih =>
    intro fuel cur hf hnl hk
    cases fuel with
    | zero => omega
    | succ fuel =>
      have h0 : (get_current_token tokens cur).type = TOKEN_NEWLINE := by
        simpa using hnl 0 (by omega)
      have hadv := advance_token_of_ne_eof tokens cur (by rw [h0]; decide)
      rw [skip_newlines, if_pos h0, hadv]
      have := ih fuel (cur + 1) (by omega)
        (fun i hi => by
          have := hnl (i + 1) (by omega)
          rwa [show cur + (i + 1) = cur + 1 + i by omega] at this)
        (by rwa [show cur + (k + 1) = cur + 1 + k by omega] at hk)
      rw [this]
      congr 1
      omega

theorem newline_run_in_range (tokens : List Token) (cur k : Nat)
    (h : ∀ i < k, (get_current_token tokens (cur + i)).type = TOKEN_NEWLINE) :
    k ≤ tokens.length := by
  cases k with
  | zero => omega
  | succ k =>
    have := cursor_in_range tokens (cur + k) (by rw [h k (by omega)]; decide)
    omega

/-- C12: when the first token at the cursor that is not a newline is an
identifier and the token after it is not `=`, `parse_stmt` exits with the
parse error of `parse_assign` for the missing `=`; the driver loop then ends
with that error and the machine, store and output, as it was.  The source `x 5`
is rejected with this error. -/
theorem parse_stmt_missing_equals :
    (∀ (tokens : List Token) (cur k : Nat),
      (∀ i < k, (get_current_token tokens (cur + i)).type = TOKEN_NEWLINE) →
      (get_current_token tokens (cur + k)).type = TOKEN_IDENTIFIER →
      (get_current_token tokens (cur + k + 1)).type ≠ TOKEN_EQUALS →
      parse_stmt tokens cur = (.exit .expected_equals, cur + k + 1)) ∧
    (∀ (tokens : List Token) (cur fuel : Nat) (m : Machine),
      (get_current_token tokens cur).type = TOKEN_IDENTIFIER →
      (get_current_token tokens (cur + 1)).type ≠ TOKEN_EQUALS →
      main_loop (fuel + 1) tokens cur m = ⟨.exit .expected_equals, cur + 1, m⟩) ∧
    main "x 5\n".toList = ⟨.exit .expected_equals, 1, ⟨[], ""⟩⟩ := by
  have key : ∀ (tokens : List Token) (cur k : Nat),
      (∀ i < k, (get_current_token tokens (cur + i)).type = TOKEN_NEWLINE) →
      (get_current_token tokens (cur + k)).type = TOKEN_IDENTIFIER →
      (get_current_token tokens (cur + k + 1)).type ≠ TOKEN_EQUALS →
      parse_stmt tokens cur = (.exit .expected_equals, cur + k + 1) := by
    intro tokens cur k hnl hid heq
    have hk := newline_run_in_range tokens cur k hnl
    have hs := skip_newlines_run tokens k (tokens.length + 1) cur (by omega) hnl
      (by rw [hid]; decide)
    have hadv := advance_token_of_ne_eof tokens (cur + k) (by rw [hid]; decide)
    simp only [parse_stmt, hs, if_pos hid, parse_assign, hadv, match_token, if_neg heq]
    rw [if_neg (not_not.2 hid)]
  refine ⟨key, ?_, by decide⟩
  intro tokens cur fuel m hid heq
  have hp := key tokens cur 0 (fun i hi => absurd hi (by omega)) hid heq
  simp only [Nat.add_zero] at hp
  have h1 : (get_current_token tokens cur).type ≠ TOKEN_EOF := by rw [hid]; decide
  have h2 : (get_current_token tokens cur).type ≠ TOKEN_NEWLINE := by rw [hid]; decide
  rw [main_loop, if_pos h1, if_pos h2, hp]

/-- Witness of C12: in the tokens of a blank line and `total count`, the
statement is rejected at the token after `total`. -/
theorem parse_stmt_missing_equals_witness :
    parse_stmt [NEWLINE_TOKEN, identifier_token "total".toList,
        identifier_token "count".toList, NEWLINE_TOKEN, EOF_TOKEN] 0 =
      (.exit .expected_equals, 0 + 1 + 1) ∧
    main_loop (0 + 1) [identifier_token ['x'], number_token 5, NEWLINE_TOKEN, EOF_TOKEN] 0
        ⟨[⟨"y", 3⟩], "3\n"⟩ = ⟨.exit .expected_equals, 0 + 1, ⟨[⟨"y", 3⟩], "3\n"⟩⟩ :=
  ⟨parse_stmt_missing_equals.1 [NEWLINE_TOKEN, identifier_token "total".toList,
      identifier_token "count".toList, NEWLINE_TOKEN, EOF_TOKEN] 0 1
      (by decide) (by decide) (by decide),
   parse_stmt_missing_equals.2.1
      [identifier_token ['x'], number_token 5, NEWLINE_TOKEN, EOF_TOKEN] 0 0
      ⟨[⟨"y", 3⟩], "3\n"⟩ (by decide) (by decide)⟩

/-! ## The keys of the variable table -/

theorem store_names (vs : List Variable) (n : String) (v : Int) :
    (store vs n v).map (fun x => x.name) =
      vs.map (fun x => x.name) ++ (if n ∈ vs.map (fun x => x.name) then [] else [n]) := by
  induction vs with
  | nil => simp [store]
  | cons w vs ih =>
    by_cases hw : w.name = n
    · simp [store, hw]
    · have hn : ¬ n = w.name := fun h => hw h.symm
      simp only [store, if_neg hw, List.map_cons, ih, List.mem_cons, hn, false_or,
        List.cons_append]

theorem eval_names (e : ASTNode) :
    ∀ m : Machine, ∃ extra, names (eval e m).2 = names m ++ extra ∧
      ((names m).Nodup → (names (eval e m).2).Nodup) := by
  induction e with
  | AST_NUMBER n => intro m; exact ⟨[], by simp [eval], fun h => h⟩
  | AST_VARIABLE name =>
    intro m
    simp only [eval]
    cases lookup m.vars name <;> exact ⟨[], by simp, fun h => h⟩
  | AST_BINARY_OP left right ihl ihr =>
    intro m
    obtain ⟨x1, h1, n1⟩ := ihl m
    simp only [eval]
    rcases hl : eval left m with ⟨r1, m1⟩
    rw [hl] at h1 n1
    cases r1 with
    | exit err => exact ⟨x1, h1, n1⟩
    | ok a =>
      obtain ⟨x2, h2, n2⟩ := ihr m1
      simp only
      rcases hr : eval right m1 with ⟨r2, m2⟩
      rw [hr] at h2 n2
      simp only at h1 h2 n1 n2
      cases r2 with
      | exit err => exact ⟨x1 ++ x2, by simp [h2, h1], fun h => n2 (n1 h)⟩
      | ok b => exact ⟨x1 ++ x2, by simp [h2, h1], fun h => n2 (n1 h)⟩
  | AST_ASSIGN name value ih =>
    intro m
    obtain ⟨x1, h1, n1⟩ := ih m
    simp only [eval]
    rcases hv : eval value m with ⟨r1, m1⟩
    rw [hv] at h1 n1
    simp only at h1 n1
    cases r1 with
    | exit err => exact ⟨x1, h1, n1⟩
    | ok v =>
      have hs := store_names m1.vars name v
      refine ⟨x1 ++ (if name ∈ names m1 then [] else [name]), ?_, ?_⟩
      · simp only [names] at h1 ⊢
        rw [hs, ← List.append_assoc, ← h1]
      · intro h
        have hm1 := n1 h
        simp only [names] at hm1 ⊢
        rw [hs]
        by_cases hin : name ∈ List.map (fun x => x.name) m1.vars
        · simpa [hin] using hm1
        · rw [if_neg hin]
          exact List.Nodup.append hm1 (List.nodup_singleton _) (by simpa using hin)
  | AST_PRINT expr ih =>
    intro m
    obtain ⟨x1, h1, n1⟩ := ih m
    simp only [eval]
    rcases hv : eval expr m with ⟨r1, m1⟩
    rw [hv] at h1 n1
    cases r1 with
    | exit err => exact ⟨x1, h1, n1⟩
    | ok v => exact ⟨x1, h1, n1⟩

theorem eval_calls_nodup (calls : List ASTNode) :
    ∀ m : Machine, (names m).Nodup → (names (eval_calls calls m)).Nodup := by
  induction calls with
  | nil => intro m h; exact h
  | cons e calls ih =>
    intro m h
    obtain ⟨_, _, hn⟩ := eval_names e m
    exact ih (eval e m).2 (hn h)

/-- C13: an `eval` call on any tree, whether it returns or exits, keeps the
names of the variable table pairwise different and keeps every entry name it
found: the names after the call are the names before it, in the same order,
followed by new ones.  So after any sequence of `eval` calls from the empty
table no two entries have the same name. -/
theorem store_keys_unique :
    (∀ (e : ASTNode) (m : Machine), (names m).Nodup → (names (eval e m).2).Nodup) ∧
    (∀ (e : ASTNode) (m : Machine), ∃ extra, names (eval e m).2 = names m ++ extra) ∧
    (∀ (e : ASTNode) (m : Machine) (n : String), n ∈ names m → n ∈ names (eval e m).2) ∧
    (∀ calls : List ASTNode, (names (eval_calls calls INITIAL)).Nodup) := by
  refine ⟨?_, ?_, ?_, ?_⟩
  · intro e m h
    obtain ⟨_, _, hn⟩ := eval_names e m
    exact hn h
  · intro e m
    obtain ⟨extra, h, _⟩ := eval_names e m
    exact ⟨extra, h⟩
  · intro e m n hn
    obtain ⟨extra, h, _⟩ := eval_names e m
    rw [h]
    exact List.mem_append_left _ hn
  · intro calls
    exact eval_calls_nodup calls INITIAL (by simp [names, INITIAL])

/-- Witness of C13: from the table `[x = 1, y = 2]` the call on
`z = (x = 5) + w`, which assigns `x` and then exits on the undefined `w`, leaves
the names `x`, `y` different and in place. -/
theorem store_keys_unique_witness :
    (names (eval (.AST_ASSIGN "z" (.AST_BINARY_OP (.AST_ASSIGN "x" (.AST_NUMBER 5))
        (.AST_VARIABLE "w"))) ⟨[⟨"x", 1⟩, ⟨"y", 2⟩], ""⟩).2).Nodup ∧
    "y" ∈ names (eval (.AST_ASSIGN "z" (.AST_BINARY_OP (.AST_ASSIGN "x" (.AST_NUMBER 5))
        (.AST_VARIABLE "w"))) ⟨[⟨"x", 1⟩, ⟨"y", 2⟩], ""⟩).2 :=
  ⟨store_keys_unique.1 _ ⟨[⟨"x", 1⟩, ⟨"y", 2⟩], ""⟩ (by decide),
   store_keys_unique.2.2.1 _ ⟨[⟨"x", 1⟩, ⟨"y", 2⟩], ""⟩ "y" (by decide)⟩

/-! ## The cursor after a statement -/

theorem skip_newlines_exact (fuel : Nat) (tokens : List Token) :
    ∀ (cur c0 : Nat), skip_newlines fuel tokens cur = some c0 →
      ∃ j, c0 = cur + j ∧
        (∀ i < j, (get_current_token tokens (cur + i)).type = TOKEN_NEWLINE) ∧
        (get_current_token tokens c0).type ≠ TOKEN_NEWLINE := by
  induction fuel with
  | zero => intro cur c0 h; simp [skip_newlines] at h
  | succ fuel ih =>
    intro cur c0 h
    simp only [skip_newlines] at h
    by_cases hn : (get_current_token tokens cur).type = TOKEN_NEWLINE
    · rw [if_pos hn, advance_token_of_ne_eof tokens cur (by rw [hn]; decide)] at h
      obtain ⟨j, hj, hnl, hc0⟩ := ih (cur + 1) c0 h
      refine ⟨j + 1, by omega, ?_, hc0⟩
      intro i hi
      cases i with
      | zero => simpa using hn
      | succ i =>
        have := hnl i (by omega)
        rwa [show cur + 1 + i = cur + (i + 1) by omega] at this
    · rw [if_neg hn] at h
      simp only [Option.some.injEq] at h
      subst h
      exact ⟨0, rfl, fun i hi => absurd hi (by omega), hn⟩

theorem parse_term_ok_token (tokens : List Token) (cur : Nat) (e : ASTNode) (cur1 : Nat)
    (h : parse_term tokens cur = (.ok e, cur1)) :
    is_term (get_current_token tokens cur) = true ∧ e = leaf (get_current_token tokens cur) := by
  simp only [parse_term] at h
  by_cases h1 : (get_current_token tokens cur).type = TOKEN_NUMBER
  · rw [if_pos h1] at h
    simp only [Prod.mk.injEq, Result.ok.injEq] at h
    exact ⟨by simp [is_term, h1], by simp [leaf, h1, h.1]⟩
  · by_cases h2 : (get_current_token tokens cur).type = TOKEN_IDENTIFIER
    · rw [if_neg h1, if_pos h2] at h
      simp only [Prod.mk.injEq, Result.ok.injEq] at h
      exact ⟨by simp [is_term, h2], by simp [leaf, h1, h.1]⟩
    · rw [if_neg h1, if_neg h2] at h
      simp at h

theorem parse_expr_loop_exact (fuel : Nat) (tokens : List Token) :
    ∀ (cur : Nat) (left e : ASTNode) (cur1 : Nat),
      parse_expr_loop fuel tokens cur left = (.ok e, cur1) →
      ∃ k, cur1 = cur + 2 * k ∧
        (∀ i < k, (get_current_token tokens (cur + 2 * i)).type = TOKEN_PLUS ∧
          is_term (get_current_token tokens (cur + 2 * i + 1)) = true) ∧
        (get_current_token tokens cur1).type ≠ TOKEN_PLUS := by
  induction fuel with
  | zero => intro cur left e cur1 h; simp [parse_expr_loop] at h
  | succ fuel ih =>
    intro cur left e cur1 h
    simp only [parse_expr_loop, match_token] at h
    by_cases hp : (get_current_token tokens cur).type = TOKEN_PLUS
    · rw [if_pos hp, advance_token_of_ne_eof tokens cur (by rw [hp]; decide)] at h
      simp only at h
      rcases ht : parse_term tokens (cur + 1) with ⟨rt, c2⟩
      rw [ht] at h
      cases rt with
      | exit err => simp at h
      | ok right =>
        obtain ⟨hc, _⟩ := parse_term_ok tokens (cur + 1) right c2 ht
        obtain ⟨hterm, _⟩ := parse_term_ok_token tokens (cur + 1) right c2 ht
        subst hc
        simp only at h
        obtain ⟨k, hk, hall, hlast⟩ := ih (cur + 1 + 1) _ e cur1 h
        refine ⟨k + 1, by omega, ?_, hlast⟩
        intro i hi
        cases i with
        | zero => exact ⟨by simpa using hp, by simpa using hterm⟩
        | succ i =>
          have := hall i (by omega)
          rw [show cur + 1 + 1 + 2 * i = cur + 2 * (i + 1) by omega] at this
          exact this
    · rw [if_neg hp] at h
      simp only [Prod.mk.injEq, Result.ok.injEq] at h
      obtain ⟨_, rfl⟩ := h
      exact ⟨0, rfl, fun i hi => absurd hi (by omega), hp⟩

theorem parse_expr_exact (tokens : List Token) (cur : Nat) (e : ASTNode) (cur1 : Nat)
    (h : parse_expr tokens cur = (.ok e, cur1)) :
    ∃ k, 1 ≤ k ∧ cur1 = cur + (2 * k - 1) ∧
      (∀ i < k, is_term (get_current_token tokens (cur + 2 * i)) = true) ∧
      (∀ i, i + 1 < k → (get_current_token tokens (cur + 2 * i + 1)).type = TOKEN_PLUS) ∧
      (get_current_token tokens cur1).type ≠ TOKEN_PLUS := by
  simp only [parse_expr] at h
  rcases ht : parse_term tokens cur with ⟨rt, c2⟩
  rw [ht] at h
  cases rt with
  | exit err => simp at h
  | ok left =>
    obtain ⟨hc, _⟩ := parse_term_ok tokens cur left c2 ht
    obtain ⟨hterm, _⟩ := parse_term_ok_token tokens cur left c2 ht
    subst hc
    simp only at h
    obtain ⟨k, hk, hall, hlast⟩ := parse_expr_loop_exact _ tokens (cur + 1) left e cur1 h
    refine ⟨k + 1, by omega, by omega, ?_, ?_, hlast⟩
    · intro i hi
      cases i with
      | zero => simpa using hterm
      | succ i =>
        have := (hall i (by omega)).2
        rwa [show cur + 1 + 2 * i + 1 = cur + 2 * (i + 1) by omega] at this
    · intro i hi
      have := (hall i (by omega)).1
      rwa [show cur + 1 + 2 * i = cur + 2 * i + 1 by omega] at this

/-- A successful `parse_stmt`, step by step: `j` newline tokens are skipped, the
statement head is checked, and `parse_expr` runs right after the head. -/
theorem parse_stmt_head (tokens : List Token) (cur cur1 : Nat) (s : ASTNode)
    (h : parse_stmt tokens cur = (.ok s, cur1)) :
    ∃ j head e,
      (∀ i < j, (get_current_token tokens (cur + i)).type = TOKEN_NEWLINE) ∧
      (get_current_token tokens (cur + j)).type ≠ TOKEN_NEWLINE ∧
      (((get_current_token tokens (cur + j)).type = TOKEN_IDENTIFIER ∧
          (get_current_token tokens (cur + j + 1)).type = TOKEN_EQUALS ∧ head = 2) ∨
        ((get_current_token tokens (cur + j)).type = TOKEN_PRINT ∧ head = 1)) ∧
      parse_expr tokens (cur + j + head) = (.ok e, cur1) := by
  obtain ⟨c0, hs, _, _⟩ := skip_newlines_spec (tokens.length + 1) tokens cur (by omega)
  obtain ⟨j, hj, hnl, hc0⟩ := skip_newlines_exact _ tokens cur c0 hs
  subst hj
  simp only [parse_stmt, hs] at h
  by_cases hi : (get_current_token tokens (cur + j)).type = TOKEN_IDENTIFIER
  · rw [if_pos hi] at h
    simp only [parse_assign, match_token] at h
    rw [if_neg (not_not.2 hi),
      advance_token_of_ne_eof tokens (cur + j) (by rw [hi]; decide)] at h
    by_cases he : (get_current_token tokens (cur + j + 1)).type = TOKEN_EQUALS
    · rw [if_pos he, advance_token_of_ne_eof tokens (cur + j + 1) (by rw [he]; decide)] at h
      simp only at h
      rcases hx : parse_expr tokens (cur + j + 1 + 1) with ⟨rx, cx⟩
      rw [hx] at h
      cases rx with
      | exit err => simp at h
      | ok value =>
        simp only [Prod.mk.injEq] at h
        obtain ⟨_, rfl⟩ := h
        exact ⟨j, 2, value, hnl, hc0, Or.inl ⟨hi, he, rfl⟩, hx⟩
    · rw [if_neg he] at h
      simp at h
  · rw [if_neg hi] at h
    by_cases hp : (get_current_token tokens (cur + j)).type = TOKEN_PRINT
    · rw [if_pos hp] at h
      simp only [parse_print, match_token] at h
      rw [if_pos hp, advance_token_of_ne_eof tokens (cur + j) (by rw [hp]; decide)] at h
      simp only at h
      rcases hx : parse_expr tokens (cur + j + 1) with ⟨rx, cx⟩
      rw [hx] at h
      cases rx with
      | exit err => simp at h
      | ok expr =>
        simp only [Prod.mk.injEq] at h
        obtain ⟨_, rfl⟩ := h
        exact ⟨j, 1, expr, hnl, hc0, Or.inr ⟨hp, rfl⟩, hx⟩
    · rw [if_neg hp] at h
      simp at h

/-- C14: when `parse_stmt` succeeds, the new cursor is the old one plus `j`
leading newline tokens, plus the statement head (an identifier and `=`, or
`print`), plus the `2k-1` tokens of `k` terms separated by plus tokens; the
token at the new cursor is not a plus, and the cursor has not moved back. -/
theorem parse_stmt_consumes (tokens : List Token) (cur cur1 : Nat) (s : ASTNode)
    (h : parse_stmt tokens cur = (.ok s, cur1)) :
    ∃ j head k,
      (∀ i < j, (get_current_token tokens (cur + i)).type = TOKEN_NEWLINE) ∧
      (get_current_token tokens (cur + j)).type ≠ TOKEN_NEWLINE ∧
      (((get_current_token tokens (cur + j)).type = TOKEN_IDENTIFIER ∧
          (get_current_token tokens (cur + j + 1)).type = TOKEN_EQUALS ∧ head = 2) ∨
        ((get_current_token tokens (cur + j)).type = TOKEN_PRINT ∧ head = 1)) ∧
      1 ≤ k ∧
      (∀ i < k, is_term (get_current_token tokens (cur + j + head + 2 * i)) = true) ∧
      (∀ i, i + 1 < k →
        (get_current_token tokens (cur + j + head + 2 * i + 1)).type = TOKEN_PLUS) ∧
      cur1 = cur + j + head + (2 * k - 1) ∧
      (get_current_token tokens cur1).type ≠ TOKEN_PLUS ∧
      cur ≤ cur1 := by
  obtain ⟨j, head, e, hnl, hc0, hhead, hx⟩ := parse_stmt_head tokens cur cur1 s h
  obtain ⟨k, hk1, hk, hterms, hplus, hlast⟩ := parse_expr_exact tokens (cur + j + head) e cur1 hx
  exact ⟨j, head, k, hnl, hc0, hhead, hk1, hterms, hplus, hk, hlast, by omega⟩

/-- Witness of C14: on the tokens of a blank line and `x = 1 + y`, from cursor 0
the call stops at cursor 6: one newline, a head of two and three tokens. -/
theorem parse_stmt_consumes_witness :
    ∃ j head k, (head = 2 ∨ head = 1) ∧ 1 ≤ k ∧ 6 = 0 + j + head + (2 * k - 1) := by
  obtain ⟨j, head, k, _, _, hh, hk, _, _, hc, _, _⟩ :=
    parse_stmt_consumes [NEWLINE_TOKEN, identifier_token ['x'], EQUALS_TOKEN, number_token 1,
      PLUS_TOKEN, identifier_token ['y'], NEWLINE_TOKEN, EOF_TOKEN] 0 6
      (.AST_ASSIGN "x" (.AST_BINARY_OP (.AST_NUMBER 1) (.AST_VARIABLE "y"))) (by decide)
  refine ⟨j, head, k, ?_, hk, hc⟩
  rcases hh with ⟨_, _, h2⟩ | ⟨_, h1⟩
  · exact Or.inl h2
  · exact Or.inr h1

/-! ## A run that fails -/

theorem exec_then_cons (s : ASTNode) (stmts : List ASTNode) (err : Option Fatal) (m : Machine) :
    exec_then (s :: stmts) err m =
      match eval s m with
      | (.exit e, m1) => (.exit e, m1)
      | (.ok _, m1) => exec_then stmts err m1 := by
  simp only [exec_then, exec]
  rcases eval s m with ⟨r, m1⟩
  cases r <;> rfl

theorem main_loop_eq_exec_then (fuel : Nat) (tokens : List Token) :
    ∀ (cur : Nat) (m : Machine),
      (main_loop fuel tokens cur m).status =
        (exec_then (parse_until_error fuel tokens cur).1 (parse_until_error fuel tokens cur).2
          m).1 ∧
      (main_loop fuel tokens cur m).machine =
        (exec_then (parse_until_error fuel tokens cur).1 (parse_until_error fuel tokens cur).2
          m).2 := by
  induction fuel with
  | zero => intro cur m; exact ⟨rfl, rfl⟩
  | succ fuel ih =>
    intro cur m
    rw [main_loop, parse_until_error]
    by_cases h1 : (get_current_token tokens cur).type = TOKEN_EOF
    · simp only [if_neg (not_not.2 h1)]
      exact ⟨rfl, rfl⟩
    · simp only [if_pos h1]
      by_cases h2 : (get_current_token tokens cur).type = TOKEN_NEWLINE
      · simp only [if_neg (not_not.2 h2)]
        exact ih _ m
      · simp only [if_pos h2]
        rcases hp : parse_stmt tokens cur with ⟨r, cur1⟩
        cases r with
        | exit e => exact ⟨rfl, rfl⟩
        | ok stmt =>
          simp only
          rw [exec_then_cons]
          rcases he : eval stmt m with ⟨r1, m1⟩
          cases r1 with
          | exit e => exact ⟨rfl, rfl⟩
          | ok v => exact ih cur1 m1

theorem parse_until_error_stmts (fuel : Nat) (tokens : List Token) :
    ∀ cur : Nat, ∀ s ∈ (parse_until_error fuel tokens cur).1, is_stmt s = true := by
  induction fuel with
  | zero => intro cur s hs; simp [parse_until_error] at hs
  | succ fuel ih =>
    intro cur s hs
    rw [parse_until_error] at hs
    by_cases h1 : (get_current_token tokens cur).type = TOKEN_EOF
    · simp only [if_neg (not_not.2 h1)] at hs
      simp at hs
    · simp only [if_pos h1] at hs
      by_cases h2 : (get_current_token tokens cur).type = TOKEN_NEWLINE
      · simp only [if_neg (not_not.2 h2)] at hs
        exact ih _ s hs
      · simp only [if_pos h2] at hs
        rcases hp : parse_stmt tokens cur with ⟨r, cur1⟩
        rw [hp] at hs
        cases r with
        | exit e => simp at hs
        | ok stmt =>
          simp only at hs
          rcases List.mem_cons.1 hs with rfl | h
          · rcases ((parse_stmt_spec tokens cur _ cur1 hp).2.2 s rfl).2 with
              ⟨n, e, rfl, he⟩ | ⟨e, rfl, he⟩
            · exact he
            · exact he
          · exact ih cur1 s h

theorem eval_stmt_exit (s : ASTNode) (m : Machine) (e : Fatal) (hs : is_stmt s = true)
    (h : (eval s m).1 = .exit e) : (eval s m).2 = m := by
  cases s with
  | AST_NUMBER n => simp [is_stmt] at hs
  | AST_VARIABLE name => simp [is_stmt] at hs
  | AST_BINARY_OP l r => simp [is_stmt] at hs
  | AST_ASSIGN name value =>
    simp only [is_stmt] at hs
    obtain ⟨r, hr⟩ := eval_expr_result value m hs
    simp only [eval, hr] at h ⊢
    cases r with
    | exit err => rfl
    | ok v => simp at h
  | AST_PRINT expr =>
    simp only [is_stmt] at hs
    obtain ⟨r, hr⟩ := eval_expr_result expr m hs
    simp only [eval, hr] at h ⊢
    cases r with
    | exit err => rfl
    | ok v => simp at h

theorem exec_append_exit (pre : List ASTNode) (s : ASTNode) (rest : List ASTNode)
    (err : Option Fatal) (e : Fatal) :
    ∀ m : Machine, (exec pre m).1 = .ok () → (eval s (exec pre m).2).1 = .exit e →
      exec_then (pre ++ s :: rest) err m = (.exit e, (eval s (exec pre m).2).2) := by
  induction pre with
  | nil =>
    intro m _ h
    simp only [exec] at h
    simp only [List.nil_append, exec_then_cons, exec]
    rcases he : eval s m with ⟨r, m1⟩
    rw [he] at h
    simp only at h
    subst h
    rfl
  | cons p pre ih =>
    intro m hok h
    simp only [exec] at hok h
    simp only [List.cons_append, exec_then_cons, exec]
    rcases hp : eval p m with ⟨r, m1⟩
    rw [hp] at hok h
    cases r with
    | exit e1 => simp at hok
    | ok v => exact ih m1 hok h

/-- Let the source lex to `tokens`, at most `TOKENS_SIZE` of them, and let the
`parse_stmt` calls of the driver loop return the trees `stmts` before one of
them exits for the reason `e`; if `stmts` are well scoped, the run exits for
the reason `e`, the machine is the one left by evaluating `stmts` in order, and
the output is one line per print statement among them.  Likewise, when the
trees `pre` are well scoped and the tree parsed after them exits on an
undefined variable, the run exits with that error, the machine is the one left
by `pre` and the output is their lines.  The source `print 1`, `x 5` prints the
line `1` and then fails. -/
theorem failure_keeps_earlier_effects_within_capacity :
    (∀ (source : List Char) (tokens : List Token) (stmts : List ASTNode) (e : Fatal),
      tokenize source = .ok tokens →
      tokens.length ≤ TOKENS_SIZE →
      parse_until_error (tokens.length + 1) tokens 0 = (stmts, some e) →
      well_scoped [] stmts = true →
      (main source).status = .exit e ∧
      (main source).machine = (exec stmts INITIAL).2 ∧
      (main source).machine.output = spec_output (fun _ => 0) stmts) ∧
    (∀ (source : List Char) (tokens : List Token) (pre : List ASTNode) (s : ASTNode)
        (rest : List ASTNode) (err : Option Fatal) (x : String),
      tokenize source = .ok tokens →
      tokens.length ≤ TOKENS_SIZE →
      parse_until_error (tokens.length + 1) tokens 0 = (pre ++ s :: rest, err) →
      well_scoped [] pre = true →
      (eval s (exec pre INITIAL).2).1 = .exit (.undefined_variable x) →
      (main source).status = .exit (.undefined_variable x) ∧
      (main source).machine = (exec pre INITIAL).2 ∧
      (main source).machine.output = spec_output (fun _ => 0) pre) ∧
    main "print 1\nx 5\n".toList = ⟨.exit .expected_equals, 4, ⟨[], "1\n"⟩⟩ := by
  refine ⟨?_, ?_, by decide⟩
  · intro source tokens stmts e htok _ hparse hws
    obtain ⟨h1, h2⟩ := main_loop_eq_exec_then (tokens.length + 1) tokens 0 INITIAL
    obtain ⟨h3, h4⟩ := exec_well_scoped stmts [] (fun _ => 0) INITIAL (by simp) hws
    rw [hparse] at h1 h2
    simp only [exec_then] at h1 h2
    rcases hx : exec stmts INITIAL with ⟨r, m1⟩
    rw [hx] at h1 h2 h3 h4
    simp only at h3 h4
    subst h3
    simp only at h1 h2
    simp only [main, htok]
    refine ⟨h1, h2, ?_⟩
    rw [h2, h4]
    simp [INITIAL]
  · intro source tokens pre s rest err x htok _ hparse hws hfail
    obtain ⟨h1, h2⟩ := main_loop_eq_exec_then (tokens.length + 1) tokens 0 INITIAL
    obtain ⟨h3, h4⟩ := exec_well_scoped pre [] (fun _ => 0) INITIAL (by simp) hws
    have hs : is_stmt s = true := by
      have := parse_until_error_stmts (tokens.length + 1) tokens 0 s
      rw [hparse] at this
      exact this (by simp)
    have hm := eval_stmt_exit s (exec pre INITIAL).2 _ hs hfail
    rw [hparse] at h1 h2
    simp only at h1 h2
    rw [exec_append_exit pre s rest err _ INITIAL h3 hfail] at h1 h2
    simp only at h1 h2
    rw [hm] at h2
    simp only [main, htok]
    refine ⟨h1, h2, ?_⟩
    rw [h2, h4]
    simp [INITIAL]

/-- The source `x = 1`, `print x`, `y = z`, `print 2` prints the line `1`,
keeps `x = 1` and exits on the undefined `z`; the source `print 7`, `print`,
exits on the parse error having printed the line `7`. -/
theorem failure_keeps_earlier_effects_within_capacity_example :
    ((main "print 7\nprint\n".toList).status = .exit (.unexpected_token "\n") ∧
      (main "print 7\nprint\n".toList).machine = ⟨[], "7\n"⟩ ∧
      (main "print 7\nprint\n".toList).machine.output = "7\n") ∧
    ((main "x = 1\nprint x\ny = z\nprint 2\n".toList).status = .exit (.undefined_variable "z") ∧
      (main "x = 1\nprint x\ny = z\nprint 2\n".toList).machine = ⟨[⟨"x", 1⟩], "1\n"⟩ ∧
      (main "x = 1\nprint x\ny = z\nprint 2\n".toList).machine.output = "1\n") :=
  ⟨failure_keeps_earlier_effects_within_capacity.1 "print 7\nprint\n".toList
      [PRINT_TOKEN, number_token 7, NEWLINE_TOKEN, PRINT_TOKEN, NEWLINE_TOKEN, EOF_TOKEN]
      [.AST_PRINT (.AST_NUMBER 7)] (.unexpected_token "\n") (by decide) (by decide) (by decide)
      (by decide),
   failure_keeps_earlier_effects_within_capacity.2.1
      "x = 1\nprint x\ny = z\nprint 2\n".toList
      [identifier_token ['x'], EQUALS_TOKEN, number_token 1, NEWLINE_TOKEN,
        PRINT_TOKEN, identifier_token ['x'], NEWLINE_TOKEN,
        identifier_token ['y'], EQUALS_TOKEN, identifier_token ['z'], NEWLINE_TOKEN,
        PRINT_TOKEN, number_token 2, NEWLINE_TOKEN, EOF_TOKEN]
      [.AST_ASSIGN "x" (.AST_NUMBER 1), .AST_PRINT (.AST_VARIABLE "x")]
      (.AST_ASSIGN "y" (.AST_VARIABLE "z")) [.AST_PRINT (.AST_NUMBER 2)] none "z"
      (by decide) (by decide) (by decide) (by decide) (by decide)⟩

set_option maxRecDepth 100000 in
/-- C15 fails on the code: the source `print 7`, 63 lines `x=1`, `x 5` has 264
bytes; the `parse_stmt` calls of the driver loop return the trees of its first
64 statements, which are well scoped, and the next call exits on the missing
`=`; the lines of the print statements among the 64 are the one line `7`.  But
`tokenize` writes 259 tokens for this source, more than the `TOKENS_SIZE`
entries of the array `tokens`: the last three writes are outside the array. -/
theorem late_error_past_capacity :
    SOURCE_LATE_ERROR.length = 264 ∧
    tokenize SOURCE_LATE_ERROR = .ok TOKENS_LATE_ERROR ∧
    TOKENS_LATE_ERROR.length = 259 ∧
    TOKENS_SIZE < TOKENS_LATE_ERROR.length ∧
    parse_until_error (TOKENS_LATE_ERROR.length + 1) TOKENS_LATE_ERROR 0 =
      (.AST_PRINT (.AST_NUMBER 7) :: List.replicate 63 (.AST_ASSIGN "x" (.AST_NUMBER 1)),
        some .expected_equals) ∧
    well_scoped [] (.AST_PRINT (.AST_NUMBER 7) ::
      List.replicate 63 (.AST_ASSIGN "x" (.AST_NUMBER 1))) = true ∧
    spec_output (fun _ => 0) (.AST_PRINT (.AST_NUMBER 7) ::
      List.replicate 63 (.AST_ASSIGN "x" (.AST_NUMBER 1))) = "7\n" := by
  decide

/-! ## The capacity of the token array -/

set_option maxRecDepth 100000 in
/-- C16 fails on the code: the source of 64 lines `x=1` has 256 bytes, fits the
buffer of `main`, and lexes without error to 257 tokens; the write of the
final end-of-input token is `tokens[256]`, outside the 256-entry array. -/
theorem token_array_overflow :
    SOURCE_64_LINES.length = 256 ∧ SOURCE_64_LINES.length ≤ 1023 ∧
    tokenize SOURCE_64_LINES =
      .ok ((List.replicate 64
        [identifier_token ['x'], EQUALS_TOKEN, number_token 1, NEWLINE_TOKEN]).flatten ++
        [EOF_TOKEN]) ∧
    ((List.replicate 64
        [identifier_token ['x'], EQUALS_TOKEN, number_token 1, NEWLINE_TOKEN]).flatten ++
        [EOF_TOKEN]).length = 257 := by
  decide

set_option maxRecDepth 100000 in
/-- C8 fails on the code: `tokenize` returns on the source of 64 lines `x=1`,
256 bytes, having written 257 tokens.  The array `tokens` holds the first
`TOKENS_SIZE` of them, the tokens of the 64 lines: none of them is the
end-of-input token and the last one is a newline token.  The end-of-input
token is the one write left over, `tokens[256]`, outside the array. -/
theorem eof_written_past_array :
    SOURCE_64_LINES.length = 256 ∧
    tokenize SOURCE_64_LINES = .ok (TOKENS_64_LINES ++ [EOF_TOKEN]) ∧
    (TOKENS_64_LINES ++ [EOF_TOKEN]).take TOKENS_SIZE = TOKENS_64_LINES ∧
    TOKENS_64_LINES.all (fun t => t.type != TOKEN_EOF) = true ∧
    TOKENS_64_LINES.getLast? = some NEWLINE_TOKEN ∧
    (TOKENS_64_LINES ++ [EOF_TOKEN]).drop TOKENS_SIZE = [EOF_TOKEN] := by
  decide

/-! ## The cursor and the end-of-input token -/

theorem advance_token_le (tokens : List Token) (n cur : Nat)
    (hn : (get_current_token tokens n).type = TOKEN_EOF) (h : cur ≤ n) :
    advance_token tokens cur ≤ n := by
  unfold advance_token
  by_cases hc : cur = n
  · subst hc
    rw [if_neg (not_not.2 hn)]
  · split_ifs <;> omega

theorem match_token_le (tokens : List Token) (n cur : Nat) (ty : TokenType)
    (hn : (get_current_token tokens n).type = TOKEN_EOF) (h : cur ≤ n) :
    (match_token tokens cur ty).2 ≤ n := by
  unfold match_token
  split_ifs
  · exact advance_token_le tokens n cur hn h
  · exact h

theorem parse_term_le (tokens : List Token) (n cur : Nat)
    (hn : (get_current_token tokens n).type = TOKEN_EOF) (h : cur ≤ n) :
    (parse_term tokens cur).2 ≤ n := by
  unfold parse_term
  simp only
  split_ifs
  · exact advance_token_le tokens n cur hn h
  · exact advance_token_le tokens n cur hn h
  · exact h

theorem parse_expr_loop_le (fuel : Nat) (tokens : List Token) (n : Nat)
    (hn : (get_current_token tokens n).type = TOKEN_EOF) :
    ∀ (cur : Nat) (left : ASTNode), cur ≤ n → (parse_expr_loop fuel tokens cur left).2 ≤ n := by
  induction fuel with
  | zero => intro cur left h; exact h
  | succ fuel ih =>
    intro cur left h
    have hm := match_token_le tokens n cur TOKEN_PLUS hn h
    simp only [parse_expr_loop]
    rcases hmt : match_token tokens cur TOKEN_PLUS with ⟨b, c1⟩
    rw [hmt] at hm
    cases b with
    | false => exact hm
    | true =>
      simp only
      have ht := parse_term_le tokens n c1 hn hm
      rcases hpt : parse_term tokens c1 with ⟨r, c2⟩
      rw [hpt] at ht
      cases r with
      | exit e => exact ht
      | ok right => exact ih c2 _ ht

theorem parse_expr_le (tokens : List Token) (n cur : Nat)
    (hn : (get_current_token tokens n).type = TOKEN_EOF) (h : cur ≤ n) :
    (parse_expr tokens cur).2 ≤ n := by
  simp only [parse_expr]
  have ht := parse_term_le tokens n cur hn h
  rcases hpt : parse_term tokens cur with ⟨r, c2⟩
  rw [hpt] at ht
  cases r with
  | exit e => exact ht
  | ok left => exact parse_expr_loop_le _ tokens n hn c2 left ht

theorem parse_assign_le (tokens : List Token) (n cur : Nat)
    (hn : (get_current_token tokens n).type = TOKEN_EOF) (h : cur ≤ n) :
    (parse_assign tokens cur).2 ≤ n := by
  simp only [parse_assign]
  split_ifs
  · exact h
  · have h1 := advance_token_le tokens n cur hn h
    have hm := match_token_le tokens n _ TOKEN_EQUALS hn h1
    rcases hmt : match_token tokens (advance_token tokens cur) TOKEN_EQUALS with ⟨b, c1⟩
    rw [hmt] at hm
    cases b with
    | false => exact hm
    | true =>
      simp only
      have hx := parse_expr_le tokens n c1 hn hm
      rcases hpx : parse_expr tokens c1 with ⟨r, c2⟩
      rw [hpx] at hx
      cases r <;> exact hx

theorem parse_print_le (tokens : List Token) (n cur : Nat)
    (hn : (get_current_token tokens n).type = TOKEN_EOF) (h : cur ≤ n) :
    (parse_print tokens cur).2 ≤ n := by
  simp only [parse_print]
  have hm := match_token_le tokens n cur TOKEN_PRINT hn h
  rcases hmt : match_token tokens cur TOKEN_PRINT with ⟨b, c1⟩
  rw [hmt] at hm
  cases b with
  | false => exact hm
  | true =>
    simp only
    have hx := parse_expr_le tokens n c1 hn hm
    rcases hpx : parse_expr tokens c1 with ⟨r, c2⟩
    rw [hpx] at hx
    cases r <;> exact hx

theorem skip_newlines_le (fuel : Nat) (tokens : List Token) (n : Nat)
    (hn : (get_current_token tokens n).type = TOKEN_EOF) :
    ∀ (cur c0 : Nat), cur ≤ n → skip_newlines fuel tokens cur = some c0 → c0 ≤ n := by
  induction fuel with
  | zero => intro cur c0 _ h; simp [skip_newlines] at h
  | succ fuel ih =>
    intro cur c0 hc h
    simp only [skip_newlines] at h
    split_ifs at h
    · exact ih _ c0 (advance_token_le tokens n cur hn hc) h
    · simp only [Option.some.injEq] at h
      omega

theorem parse_stmt_le (tokens : List Token) (n cur : Nat)
    (hn : (get_current_token tokens n).type = TOKEN_EOF) (h : cur ≤ n) :
    (parse_stmt tokens cur).2 ≤ n := by
  simp only [parse_stmt]
  cases hs : skip_newlines (tokens.length + 1) tokens cur with
  | none => exact h
  | some c0 =>
    have h0 := skip_newlines_le _ tokens n hn cur c0 h hs
    simp only
    split_ifs
    · exact parse_assign_le tokens n c0 hn h0
    · exact parse_print_le tokens n c0 hn h0
    · exact h0

theorem main_loop_le (fuel : Nat) (tokens : List Token) (n : Nat)
    (hn : (get_current_token tokens n).type = TOKEN_EOF) :
    ∀ (cur : Nat) (m : Machine), cur ≤ n → (main_loop fuel tokens cur m).current_token ≤ n := by
  induction fuel with
  | zero => intro cur m h; exact h
  | succ fuel ih =>
    intro cur m h
    simp only [main_loop]
    split_ifs
    · have hp := parse_stmt_le tokens n cur hn h
      rcases hps : parse_stmt tokens cur with ⟨r, c1⟩
      rw [hps] at hp
      cases r with
      | exit e => exact hp
      | ok stmt =>
        simp only
        rcases he : eval stmt m with ⟨r1, m1⟩
        cases r1 with
        | exit e => exact hp
        | ok v => exact ih c1 m1 hp
    · exact ih _ m (advance_token_le tokens n cur hn h)
    · exact h

/-- Let the tokens fit the array `tokens`, at most `TOKENS_SIZE` of them, and
let the token at index `n` be the end-of-input token (for a sequence that ends
with its only end-of-input token, `n` is its last index); `n` is an index of
the array.  From a cursor that is at most `n`, `advance_token`, `match`, every
parse function and the driver loop leave a cursor that is at most `n`, whether
they return or exit: `advance_token` does not move at `n`.  Since the cursor is
moved by `advance_token` alone, `get_current_token` is never called past index
`n`.  The runs on `x =` and on `print` stop on the end-of-input token. -/
theorem cursor_stays_before_eof_within_capacity :
    (∀ (tokens : List Token) (n cur : Nat),
      tokens.length ≤ TOKENS_SIZE →
      (get_current_token tokens n).type = TOKEN_EOF → cur ≤ n →
      n < TOKENS_SIZE ∧
      advance_token tokens cur ≤ n ∧
      advance_token tokens n = n ∧
      (∀ ty, (match_token tokens cur ty).2 ≤ n) ∧
      (parse_term tokens cur).2 ≤ n ∧
      (∀ fuel left, (parse_expr_loop fuel tokens cur left).2 ≤ n) ∧
      (parse_expr tokens cur).2 ≤ n ∧
      (parse_assign tokens cur).2 ≤ n ∧
      (parse_print tokens cur).2 ≤ n ∧
      (∀ fuel c0, skip_newlines fuel tokens cur = some c0 → c0 ≤ n) ∧
      (parse_stmt tokens cur).2 ≤ n ∧
      (∀ fuel m, (main_loop fuel tokens cur m).current_token ≤ n)) ∧
    (∀ (source : List Char) (tokens : List Token), tokenize source = .ok tokens →
      tokens.length ≤ TOKENS_SIZE →
      (get_current_token tokens (tokens.length - 1)).type = TOKEN_EOF ∧
      (main source).current_token ≤ tokens.length - 1 ∧
      (main source).current_token < TOKENS_SIZE) ∧
    main "x =".toList = ⟨.exit (.unexpected_token "EOF"), 2, ⟨[], ""⟩⟩ ∧
    main "print".toList = ⟨.exit (.unexpected_token "EOF"), 1, ⟨[], ""⟩⟩ := by
  refine ⟨?_, ?_, by decide, by decide⟩
  · intro tokens n cur hfit hn h
    have hlt := cursor_in_range tokens n (by rw [hn]; decide)
    refine ⟨by omega, advance_token_le tokens n cur hn h, ?_,
      fun ty => match_token_le tokens n cur ty hn h,
      parse_term_le tokens n cur hn h, fun fuel left => parse_expr_loop_le fuel tokens n hn cur left h,
      parse_expr_le tokens n cur hn h, parse_assign_le tokens n cur hn h,
      parse_print_le tokens n cur hn h, fun fuel c0 => skip_newlines_le fuel tokens n hn cur c0 h,
      parse_stmt_le tokens n cur hn h, fun fuel m => main_loop_le fuel tokens n hn cur m h⟩
    simp only [advance_token, if_neg (not_not.2 hn)]
  · intro source tokens htok hfit
    rcases tokenize_outcome source with ⟨_, body, hok, _⟩ | ⟨_, c, hex⟩
    · rw [hok] at htok
      simp only [Result.ok.injEq] at htok
      subst htok
      have hn : (get_current_token (body ++ [EOF_TOKEN]) ((body ++ [EOF_TOKEN]).length - 1)).type
          = TOKEN_EOF := by
        have : (body ++ [EOF_TOKEN]).length - 1 = body.length := by simp
        rw [this, get_current_token_append]
        rfl
      have hle : (main source).current_token ≤ (body ++ [EOF_TOKEN]).length - 1 := by
        simp only [main, hok]
        exact main_loop_le _ _ _ hn 0 INITIAL (by omega)
      have hpos : 0 < (body ++ [EOF_TOKEN]).length := by simp
      exact ⟨hn, hle, by omega⟩
    · rw [hex] at htok
      cases htok

/-- On the tokens of `x = 1 +`, whose end-of-input token has index 4, the run
stops with the cursor on it. -/
theorem cursor_stays_before_eof_within_capacity_example :
    (main_loop 6 [identifier_token ['x'], EQUALS_TOKEN, number_token 1, PLUS_TOKEN, EOF_TOKEN]
      0 INITIAL).current_token ≤ 4 :=
  (cursor_stays_before_eof_within_capacity.1
    [identifier_token ['x'], EQUALS_TOKEN, number_token 1, PLUS_TOKEN, EOF_TOKEN] 4 0
    (by decide) (by decide) (by decide)).2.2.2.2.2.2.2.2.2.2.2 6 INITIAL

theorem main_loop_fuel (f : Nat) (tokens : List Token) :
    ∀ (g cur : Nat) (m : Machine), tokens.length - cur < f → tokens.length - cur < g →
      main_loop f tokens cur m = main_loop g tokens cur m := by
  induction f with
  | zero => intro g cur m h; omega
  | succ f ih =>
    intro g cur m hf hg
    cases g with
    | zero => omega
    | succ g =>
      rw [main_loop, main_loop]
      by_cases h1 : (get_current_token tokens cur).type = TOKEN_EOF
      · simp only [if_neg (not_not.2 h1)]
      · simp only [if_pos h1]
        by_cases h2 : (get_current_token tokens cur).type = TOKEN_NEWLINE
        · simp only [if_neg (not_not.2 h2)]
          have hlt := cursor_in_range tokens cur (by rw [h2]; decide)
          rw [advance_token_of_ne_eof tokens cur h1]
          exact ih g (cur + 1) m (by omega) (by omega)
        · simp only [if_pos h2]
          rcases hp : parse_stmt tokens cur with ⟨r, cur1⟩
          cases r with
          | exit e => rfl
          | ok stmt =>
            simp only
            have hlt := parse_stmt_ok_in_range tokens cur stmt cur1 hp
            have hadv := ((parse_stmt_spec tokens cur _ cur1 hp).2.2 stmt rfl).1
            rcases he : eval stmt m with ⟨r1, m1⟩
            cases r1 with
            | exit e => rfl
            | ok v => exact ih g cur1 m1 (by omega) (by omega)

/-- C18: the driver loop ends within `tokens.length - cursor + 1` trips: with
that much fuel or more the result is the same and is never the fuel marker.
A trip on a newline token moves the cursor by one, a trip with a parsed
statement by at least two; `parse_stmt` and `parse_expr` never run out of
their fuel, each trip of the newline loop of `parse_stmt` moves the cursor by
one and each trip of the loop of `parse_expr` by two. -/
theorem driver_terminates :
    (∀ (tokens : List Token) (cur fuel : Nat) (m : Machine), tokens.length - cur < fuel →
      main_loop fuel tokens cur m = main_loop (tokens.length - cur + 1) tokens cur m ∧
      (main_loop fuel tokens cur m).status ≠ .exit .out_of_fuel) ∧
    (∀ source : List Char, (main source).status ≠ .exit .out_of_fuel) ∧
    (∀ (tokens : List Token) (cur : Nat),
      (get_current_token tokens cur).type = TOKEN_NEWLINE →
      advance_token tokens cur = cur + 1) ∧
    (∀ (tokens : List Token) (cur cur1 : Nat) (s : ASTNode),
      parse_stmt tokens cur = (.ok s, cur1) → cur + 2 ≤ cur1) ∧
    (∀ (tokens : List Token) (cur : Nat),
      (parse_stmt tokens cur).1 ≠ .exit .out_of_fuel ∧
      (parse_expr tokens cur).1 ≠ .exit .out_of_fuel) ∧
    (∀ (tokens : List Token) (cur cur1 : Nat) (right : ASTNode),
      (get_current_token tokens cur).type = TOKEN_PLUS →
      parse_term tokens (match_token tokens cur TOKEN_PLUS).2 = (.ok right, cur1) →
      cur1 = cur + 2) := by
  refine ⟨?_, main_total, ?_, ?_, ?_, ?_⟩
  · intro tokens cur fuel m h
    exact ⟨main_loop_fuel fuel tokens _ cur m h (by omega), main_loop_total fuel tokens cur m h⟩
  · intro tokens cur h
    exact advance_token_of_ne_eof tokens cur (by rw [h]; decide)
  · intro tokens cur cur1 s h
    obtain ⟨j, head, e, _, _, hh, hx⟩ := parse_stmt_head tokens cur cur1 s h
    have hlt := ((parse_expr_spec tokens (cur + j + head) _ cur1 hx).2.2 e rfl).1
    rcases hh with ⟨_, _, rfl⟩ | ⟨_, rfl⟩ <;> omega
  · intro tokens cur
    constructor
    · rcases hp : parse_stmt tokens cur with ⟨r, c1⟩
      exact (parse_stmt_spec tokens cur r c1 hp).1
    · rcases hp : parse_expr tokens cur with ⟨r, c1⟩
      exact (parse_expr_spec tokens cur r c1 hp).1
  · intro tokens cur cur1 right hp ht
    have hm : (match_token tokens cur TOKEN_PLUS).2 = cur + 1 := by
      simp only [match_token, if_pos hp,
        advance_token_of_ne_eof tokens cur (by rw [hp]; decide)]
    rw [hm] at ht
    exact (parse_term_ok tokens (cur + 1) right cur1 ht).1

/-- Witness of C18: on the tokens of `print 1` and a newline the loop needs no
more than five trips: with fuel 9 it gives what it gives with fuel 5. -/
theorem driver_terminates_witness :
    main_loop 9 [PRINT_TOKEN, number_token 1, NEWLINE_TOKEN, EOF_TOKEN] 0 INITIAL =
        main_loop (4 - 0 + 1) [PRINT_TOKEN, number_token 1, NEWLINE_TOKEN, EOF_TOKEN] 0 INITIAL ∧
    (main_loop 9 [PRINT_TOKEN, number_token 1, NEWLINE_TOKEN, EOF_TOKEN] 0 INITIAL).status ≠
      .exit .out_of_fuel :=
  driver_terminates.1 [PRINT_TOKEN, number_token 1, NEWLINE_TOKEN, EOF_TOKEN] 0 9 INITIAL
    (by decide)

/-! ## The frame of a parsed statement -/

theorem store_filter_other (vs : List Variable) (n : String) (v : Int) :
    (store vs n v).filter (fun x => x.name != n) = vs.filter (fun x => x.name != n) := by
  induction vs with
  | nil => simp [store]
  | cons w vs ih =>
    by_cases hw : w.name = n
    · simp [store, hw]
    · simp [store, hw, ih]

/-- C19: a tree returned by a successful `parse_stmt` is `Assign(name, e)` or
`PrintStmt(e)` with `e` built of number, variable and addition nodes only.
Evaluating such a `PrintStmt`, whether it returns or exits, leaves the variable
table as it was.  Evaluating such an `Assign(name, e)` leaves the output as it
was and the table either as it was or with `name` stored: the entries with
another name are the same, in the same order. -/
theorem parsed_stmt_frame :
    (∀ (tokens : List Token) (cur cur1 : Nat) (s : ASTNode),
      parse_stmt tokens cur = (.ok s, cur1) →
      (∃ name e, s = .AST_ASSIGN name e ∧ is_expr e = true) ∨
      (∃ e, s = .AST_PRINT e ∧ is_expr e = true)) ∧
    (∀ (tokens : List Token) (cur cur1 : Nat) (e : ASTNode) (m : Machine),
      parse_stmt tokens cur = (.ok (.AST_PRINT e), cur1) →
      (eval (.AST_PRINT e) m).2.vars = m.vars) ∧
    (∀ (tokens : List Token) (cur cur1 : Nat) (name : String) (e : ASTNode) (m : Machine),
      parse_stmt tokens cur = (.ok (.AST_ASSIGN name e), cur1) →
      (eval (.AST_ASSIGN name e) m).2.output = m.output ∧
      ((eval (.AST_ASSIGN name e) m).2.vars = m.vars ∨
        ∃ v, (eval (.AST_ASSIGN name e) m).2.vars = store m.vars name v) ∧
      (eval (.AST_ASSIGN name e) m).2.vars.filter (fun x => x.name != name) =
        m.vars.filter (fun x => x.name != name)) := by
  refine ⟨?_, ?_, ?_⟩
  · intro tokens cur cur1 s h
    exact ((parse_stmt_spec tokens cur (.ok s) cur1 h).2.2 s rfl).2
  · intro tokens cur cur1 e m h
    have hshape := ((parse_stmt_spec tokens cur _ cur1 h).2.2 _ rfl).2
    have he : is_expr e = true := by
      rcases hshape with ⟨n, e1, h1, _⟩ | ⟨e1, h1, h2⟩
      · cases h1
      · cases h1; exact h2
    obtain ⟨r, hr⟩ := eval_expr_result e m he
    simp only [eval, hr]
    cases r <;> rfl
  · intro tokens cur cur1 name e m h
    have hshape := ((parse_stmt_spec tokens cur _ cur1 h).2.2 _ rfl).2
    have he : is_expr e = true := by
      rcases hshape with ⟨n, e1, h1, h2⟩ | ⟨e1, h1, _⟩
      · cases h1; exact h2
      · cases h1
    obtain ⟨r, hr⟩ := eval_expr_result e m he
    simp only [eval, hr]
    cases r with
    | exit err => exact ⟨rfl, Or.inl rfl, rfl⟩
    | ok v => exact ⟨rfl, Or.inr ⟨v, rfl⟩, store_filter_other m.vars name v⟩

/-- Witness of C19: the tokens of `x = y + 1` parse to an assignment whose
evaluation in the table `[x = 0, y = 4, z = 9]` changes the entry of `x` only. -/
theorem parsed_stmt_frame_witness :
    (eval (.AST_ASSIGN "x" (.AST_BINARY_OP (.AST_VARIABLE "y") (.AST_NUMBER 1)))
        ⟨[⟨"x", 0⟩, ⟨"y", 4⟩, ⟨"z", 9⟩], ""⟩).2.output = "" ∧
    ((eval (.AST_ASSIGN "x" (.AST_BINARY_OP (.AST_VARIABLE "y") (.AST_NUMBER 1)))
        ⟨[⟨"x", 0⟩, ⟨"y", 4⟩, ⟨"z", 9⟩], ""⟩).2.vars = [⟨"x", 0⟩, ⟨"y", 4⟩, ⟨"z", 9⟩] ∨
      ∃ v, (eval (.AST_ASSIGN "x" (.AST_BINARY_OP (.AST_VARIABLE "y") (.AST_NUMBER 1)))
        ⟨[⟨"x", 0⟩, ⟨"y", 4⟩, ⟨"z", 9⟩], ""⟩).2.vars =
          store [⟨"x", 0⟩, ⟨"y", 4⟩, ⟨"z", 9⟩] "x" v) ∧
    (eval (.AST_ASSIGN "x" (.AST_BINARY_OP (.AST_VARIABLE "y") (.AST_NUMBER 1)))
        ⟨[⟨"x", 0⟩, ⟨"y", 4⟩, ⟨"z", 9⟩], ""⟩).2.vars.filter (fun x => x.name != "x") =
      [⟨"y", 4⟩, ⟨"z", 9⟩] :=
  parsed_stmt_frame.2.2 [identifier_token ['x'], EQUALS_TOKEN, identifier_token ['y'],
      PLUS_TOKEN, number_token 1, EOF_TOKEN] 0 5 "x"
    (.AST_BINARY_OP (.AST_VARIABLE "y") (.AST_NUMBER 1)) ⟨[⟨"x", 0⟩, ⟨"y", 4⟩, ⟨"z", 9⟩], ""⟩
    (by decide)

/-! ## Newline tokens between statements -/

theorem plus_terms_length (more : List (Token × Token)) :
    (plus_terms more).length = 2 * more.length := by
  induction more with
  | nil => rfl
  | cons pt more ih => obtain ⟨p, t⟩ := pt; simp [plus_terms, ih]; omega

theorem parse_expr_at (pre : List Token) (first : Token) (more : List (Token × Token))
    (nxt : Token) (rest : List Token) (hfirst : is_term first = true)
    (hmore : ∀ pt ∈ more, pt.1.type = TOKEN_PLUS ∧ is_term pt.2 = true)
    (hnxt : nxt.type ≠ TOKEN_PLUS) :
    parse_expr (pre ++ first :: (plus_terms more ++ nxt :: rest)) pre.length =
      (.ok (List.foldl .AST_BINARY_OP (leaf first) (more.map fun pt => leaf pt.2)),
        pre.length + 1 + 2 * more.length) := by
  have h1 := parse_term_at pre (plus_terms more ++ nxt :: rest) first hfirst
  have h2 := parse_expr_loop_terms more
    ((pre ++ first :: (plus_terms more ++ nxt :: rest)).length + 1) (pre ++ [first])
    (leaf first) nxt rest hmore hnxt (by
      simp only [List.length_append, List.length_cons, plus_terms_length]
      omega)
  have h3 : pre ++ [first] ++ (plus_terms more ++ nxt :: rest) =
      pre ++ first :: (plus_terms more ++ nxt :: rest) := by simp
  rw [h3] at h2
  simp only [List.length_append, List.length_cons, List.length_nil] at h2
  simp only [parse_expr, h1]
  simp only [List.length_append, List.length_cons]
  rw [h2]

theorem more_all (more : List (Token × Token))
    (h : (more.all fun pt => decide (pt.1.type = TOKEN_PLUS) && is_term pt.2) = true) :
    ∀ pt ∈ more, pt.1.type = TOKEN_PLUS ∧ is_term pt.2 = true := by
  intro pt hpt
  have := List.all_eq_true.1 h pt hpt
  simpa using this

theorem skip_newlines_none (tokens : List Token) (cur fuel : Nat)
    (h : (get_current_token tokens cur).type ≠ TOKEN_NEWLINE) :
    skip_newlines (fuel + 1) tokens cur = some cur := by
  simp only [skip_newlines, if_neg h]

/-- On the tokens of a well-formed statement followed by a token that is not a
plus, `parse_stmt` returns the tree of the statement and stops right after it. -/
theorem parse_stmt_at (pre : List Token) (s : Statement) (nxt : Token) (rest : List Token)
    (hs : s.well_formed = true) (hnxt : nxt.type ≠ TOKEN_PLUS) :
    parse_stmt (pre ++ (s.tokens ++ nxt :: rest)) pre.length =
      (.ok s.tree, pre.length + s.tokens.length) := by
  cases s with
  | assign id eq first more =>
    simp only [Statement.well_formed, Bool.and_eq_true, decide_eq_true_eq] at hs
    obtain ⟨⟨⟨hid, heq⟩, hfirst⟩, hmore⟩ := hs
    have hx := parse_expr_at (pre ++ [id, eq]) first more nxt rest hfirst (more_all more hmore)
      hnxt
    have e1 : pre ++ [id, eq] ++ first :: (plus_terms more ++ nxt :: rest) =
        pre ++ ((Statement.assign id eq first more).tokens ++ nxt :: rest) := by
      simp [Statement.tokens]
    rw [e1] at hx
    have g0 : get_current_token (pre ++ ((Statement.assign id eq first more).tokens ++
        nxt :: rest)) pre.length = id := by
      simpa [Statement.tokens] using get_current_token_append pre
        (eq :: first :: (plus_terms more ++ nxt :: rest)) id
    have g1 : get_current_token (pre ++ ((Statement.assign id eq first more).tokens ++
        nxt :: rest)) (pre.length + 1) = eq := by
      simpa [Statement.tokens] using get_current_token_append (pre ++ [id])
        (first :: (plus_terms more ++ nxt :: rest)) eq
    have hl : (pre ++ [id, eq]).length = pre.length + 1 + 1 := by simp
    rw [hl] at hx
    have hnl : (get_current_token (pre ++ ((Statement.assign id eq first more).tokens ++
        nxt :: rest)) pre.length).type ≠ TOKEN_NEWLINE := by rw [g0, hid]; decide
    have ha0 := advance_token_of_ne_eof (pre ++ ((Statement.assign id eq first more).tokens ++
        nxt :: rest)) pre.length (by rw [g0, hid]; decide)
    have ha1 := advance_token_of_ne_eof (pre ++ ((Statement.assign id eq first more).tokens ++
        nxt :: rest)) (pre.length + 1) (by rw [g1, heq]; decide)
    have hid' : (get_current_token (pre ++ ((Statement.assign id eq first more).tokens ++
        nxt :: rest)) pre.length).type = TOKEN_IDENTIFIER := by rw [g0, hid]
    have heq' : (get_current_token (pre ++ ((Statement.assign id eq first more).tokens ++
        nxt :: rest)) (pre.length + 1)).type = TOKEN_EQUALS := by rw [g1, heq]
    rw [parse_stmt, skip_newlines_none _ _ _ hnl]
    simp only [if_pos hid', parse_assign, if_neg (not_not.2 hid'), ha0, match_token,
      if_pos heq', ha1, hx]
    rw [g0]
    simp only [Statement.tree, Statement.tokens, List.length_cons, plus_terms_length,
      Prod.mk.injEq, true_and]
    omega
  | print pr first more =>
    simp only [Statement.well_formed, Bool.and_eq_true, decide_eq_true_eq] at hs
    obtain ⟨⟨hpr, hfirst⟩, hmore⟩ := hs
    have hx := parse_expr_at (pre ++ [pr]) first more nxt rest hfirst (more_all more hmore) hnxt
    have e1 : pre ++ [pr] ++ first :: (plus_terms more ++ nxt :: rest) =
        pre ++ ((Statement.print pr first more).tokens ++ nxt :: rest) := by
      simp [Statement.tokens]
    rw [e1] at hx
    have g0 : get_current_token (pre ++ ((Statement.print pr first more).tokens ++
        nxt :: rest)) pre.length = pr := by
      simpa [Statement.tokens] using get_current_token_append pre
        (first :: (plus_terms more ++ nxt :: rest)) pr
    have hl : (pre ++ [pr]).length = pre.length + 1 := by simp
    rw [hl] at hx
    have hnl : (get_current_token (pre ++ ((Statement.print pr first more).tokens ++
        nxt :: rest)) pre.length).type ≠ TOKEN_NEWLINE := by rw [g0, hpr]; decide
    have ha0 := advance_token_of_ne_eof (pre ++ ((Statement.print pr first more).tokens ++
        nxt :: rest)) pre.length (by rw [g0, hpr]; decide)
    have hpr' : (get_current_token (pre ++ ((Statement.print pr first more).tokens ++
        nxt :: rest)) pre.length).type = TOKEN_PRINT := by rw [g0, hpr]
    have hni : ¬ (get_current_token (pre ++ ((Statement.print pr first more).tokens ++
        nxt :: rest)) pre.length).type = TOKEN_IDENTIFIER := by rw [g0, hpr]; decide
    rw [parse_stmt, skip_newlines_none _ _ _ hnl]
    simp only [if_neg hni, if_pos hpr', parse_print, match_token, ha0, hx]
    simp only [Statement.tree, Statement.tokens, List.length_cons, plus_terms_length,
      Prod.mk.injEq, true_and]
    omega

theorem statement_head (s : Statement) (hs : s.well_formed = true) :
    ∃ hd tl, s.tokens = hd :: tl ∧ hd.type ≠ TOKEN_EOF ∧ hd.type ≠ TOKEN_NEWLINE ∧
      hd.type ≠ TOKEN_PLUS := by
  cases s with
  | assign id eq first more =>
    simp only [Statement.well_formed, Bool.and_eq_true, decide_eq_true_eq] at hs
    obtain ⟨⟨⟨hid, _⟩, _⟩, _⟩ := hs
    exact ⟨id, _, rfl, by rw [hid]; decide, by rw [hid]; decide, by rw [hid]; decide⟩
  | print pr first more =>
    simp only [Statement.well_formed, Bool.and_eq_true, decide_eq_true_eq] at hs
    obtain ⟨⟨hpr, _⟩, _⟩ := hs
    exact ⟨pr, _, rfl, by rw [hpr]; decide, by rw [hpr]; decide, by rw [hpr]; decide⟩

theorem valid_program_cons (gap : List Token) (s : Statement)
    (lines : List (List Token × Statement)) (trailing : List Token) (eof : Token)
    (h : valid_program ((gap, s) :: lines) trailing eof = true) :
    (∀ t ∈ gap, t.type = TOKEN_NEWLINE) ∧ s.well_formed = true ∧
      valid_program lines trailing eof = true := by
  simp only [valid_program, List.all_cons, Bool.and_eq_true, decide_eq_true_eq,
    List.all_eq_true] at h ⊢
  obtain ⟨⟨⟨⟨hg, hs⟩, hl⟩, ht⟩, he⟩ := h
  exact ⟨hg, hs, ⟨hl, ht⟩, he⟩

theorem valid_program_nil (trailing : List Token) (eof : Token)
    (h : valid_program [] trailing eof = true) :
    (∀ t ∈ trailing, t.type = TOKEN_NEWLINE) ∧ eof.type = TOKEN_EOF := by
  simp only [valid_program, List.all_nil, Bool.true_and, Bool.and_eq_true, decide_eq_true_eq,
    List.all_eq_true] at h
  exact h

theorem program_tokens_head (lines : List (List Token × Statement)) (trailing : List Token)
    (eof : Token) (h : valid_program lines trailing eof = true) :
    ∃ nxt rest, program_tokens lines trailing eof = nxt :: rest ∧ nxt.type ≠ TOKEN_PLUS := by
  cases lines with
  | nil =>
    obtain ⟨ht, he⟩ := valid_program_nil trailing eof h
    cases trailing with
    | nil => exact ⟨eof, [], rfl, by rw [he]; decide⟩
    | cons t trailing =>
      exact ⟨t, trailing ++ [eof], rfl, by rw [ht t (List.mem_cons_self _ _)]; decide⟩
  | cons l lines =>
    obtain ⟨gap, s⟩ := l
    obtain ⟨hg, hs, _⟩ := valid_program_cons gap s lines trailing eof h
    cases gap with
    | nil =>
      obtain ⟨hd, tl, htok, _, _, hp⟩ := statement_head s hs
      exact ⟨hd, tl ++ program_tokens lines trailing eof, by simp [program_tokens, htok], hp⟩
    | cons t gap =>
      exact ⟨t, gap ++ (s.tokens ++ program_tokens lines trailing eof), rfl,
        by rw [hg t (List.mem_cons_self _ _)]; decide⟩

theorem parse_program_newlines (gap : List Token) (hg : ∀ t ∈ gap, t.type = TOKEN_NEWLINE) :
    ∀ (pre rest : List Token) (f : Nat),
      parse_program (f + gap.length) (pre ++ (gap ++ rest)) pre.length =
        parse_program f (pre ++ gap ++ rest) (pre ++ gap).length := by
  induction gap with
  | nil => intro pre rest f; simp
  | cons t gap ih =>
    intro pre rest f
    have ht := hg t (List.mem_cons_self _ _)
    have g0 : get_current_token (pre ++ (t :: gap ++ rest)) pre.length = t := by
      simpa using get_current_token_append pre (gap ++ rest) t
    have h1 : (get_current_token (pre ++ (t :: gap ++ rest)) pre.length).type ≠ TOKEN_EOF := by
      rw [g0, ht]; decide
    have h2 : (get_current_token (pre ++ (t :: gap ++ rest)) pre.length).type = TOKEN_NEWLINE := by
      rw [g0, ht]
    have hf : f + (t :: gap).length = (f + gap.length) + 1 := by simp; omega
    rw [hf, parse_program, if_pos h1, if_neg (not_not.2 h2), advance_token_of_ne_eof _ _ h1]
    have := ih (fun u hu => hg u (List.mem_cons_of_mem _ hu)) (pre ++ [t]) rest f
    have e1 : pre ++ [t] ++ (gap ++ rest) = pre ++ (t :: gap ++ rest) := by simp
    have e2 : pre ++ [t] ++ gap ++ rest = pre ++ (t :: gap) ++ rest := by simp
    have e3 : (pre ++ [t]).length = pre.length + 1 := by simp
    have e4 : (pre ++ [t] ++ gap).length = (pre ++ t :: gap).length := by simp
    rw [e1, e2, e3, e4] at this
    exact this

/-- The statements of a valid program are what the driver's `parse_stmt` calls
return, wherever the newline tokens stand. -/
theorem parse_program_layout (lines : List (List Token × Statement)) (trailing : List Token)
    (eof : Token) :
    ∀ pre : List Token, valid_program lines trailing eof = true →
      ∃ f, parse_program f (pre ++ program_tokens lines trailing eof) pre.length =
        .ok (lines.map fun l => l.2.tree) := by
  induction lines with
  | nil =>
    intro pre h
    obtain ⟨ht, he⟩ := valid_program_nil trailing eof h
    refine ⟨1 + trailing.length, ?_⟩
    simp only [program_tokens]
    rw [parse_program_newlines trailing ht pre [eof] 1]
    have g0 := get_current_token_append (pre ++ trailing) [] eof
    rw [parse_program, if_neg (not_not.2 (by rw [g0, he]))]
    rfl
  | cons l lines ih =>
    intro pre h
    obtain ⟨gap, s⟩ := l
    obtain ⟨hg, hs, hv⟩ := valid_program_cons gap s lines trailing eof h
    obtain ⟨nxt, rest, hP, hnxt⟩ := program_tokens_head lines trailing eof hv
    obtain ⟨hd, tl, htok, hd1, hd2, _⟩ := statement_head s hs
    obtain ⟨f, hf⟩ := ih (pre ++ gap ++ s.tokens) hv
    refine ⟨f + 1 + gap.length, ?_⟩
    simp only [program_tokens]
    rw [parse_program_newlines gap hg pre _ (f + 1)]
    have hps := parse_stmt_at (pre ++ gap) s nxt rest hs hnxt
    rw [← hP] at hps
    have g0 : get_current_token (pre ++ gap ++ (s.tokens ++ program_tokens lines trailing eof))
        (pre ++ gap).length = hd := by
      rw [htok]
      exact get_current_token_append (pre ++ gap) _ hd
    rw [parse_program, if_pos (by rw [g0]; exact hd1), if_pos (by rw [g0]; exact hd2), hps]
    simp only
    have e1 : pre ++ gap ++ (s.tokens ++ program_tokens lines trailing eof) =
        pre ++ gap ++ s.tokens ++ program_tokens lines trailing eof := by simp
    have e2 : (pre ++ gap).length + s.tokens.length = (pre ++ gap ++ s.tokens).length := by
      simp only [List.length_append]
    rw [e1, e2, hf]
    rfl

/-- The run on the tokens of a valid program: the statements evaluated in
order. -/
theorem main_loop_layout (lines : List (List Token × Statement)) (trailing : List Token)
    (eof : Token) (m : Machine) (h : valid_program lines trailing eof = true) :
    (main_loop ((program_tokens lines trailing eof).length + 1)
        (program_tokens lines trailing eof) 0 m).status =
      (exec (lines.map fun l => l.2.tree) m).1 ∧
    (main_loop ((program_tokens lines trailing eof).length + 1)
        (program_tokens lines trailing eof) 0 m).machine =
      (exec (lines.map fun l => l.2.tree) m).2 := by
  obtain ⟨f, hf⟩ := parse_program_layout lines trailing eof [] h
  simp only [List.nil_append, List.length_nil] at hf
  exact main_loop_eq_exec _ _ 0 m _
    (parse_program_fuel f _ 0 _ _ hf (by omega))

/-- Two token sequences that fit the array `tokens`, at most `TOKENS_SIZE`
tokens each, and hold the same well-formed statements in the same order, with
whatever runs of newline tokens (also empty ones) before, between and after
them, give runs with the same status and the same machine, store and output,
from every starting machine.  The one-line source `x = 5 print x` prints the
line `5`, like the two-line source. -/
theorem blank_lines_inert_within_capacity :
    (∀ (lines lines1 : List (List Token × Statement)) (trailing trailing1 : List Token)
        (eof eof1 : Token) (m : Machine),
      valid_program lines trailing eof = true →
      valid_program lines1 trailing1 eof1 = true →
      (program_tokens lines trailing eof).length ≤ TOKENS_SIZE →
      (program_tokens lines1 trailing1 eof1).length ≤ TOKENS_SIZE →
      lines.map Prod.snd = lines1.map Prod.snd →
      (main_loop ((program_tokens lines trailing eof).length + 1)
          (program_tokens lines trailing eof) 0 m).status =
        (main_loop ((program_tokens lines1 trailing1 eof1).length + 1)
          (program_tokens lines1 trailing1 eof1) 0 m).status ∧
      (main_loop ((program_tokens lines trailing eof).length + 1)
          (program_tokens lines trailing eof) 0 m).machine =
        (main_loop ((program_tokens lines1 trailing1 eof1).length + 1)
          (program_tokens lines1 trailing1 eof1) 0 m).machine) ∧
    (main "x = 5 print x".toList).status = (main "x = 5\nprint x\n".toList).status ∧
    (main "x = 5 print x".toList).machine = (main "x = 5\nprint x\n".toList).machine ∧
    (main "x = 5 print x".toList).machine.output = "5\n" := by
  refine ⟨?_, by decide, by decide, by decide⟩
  intro lines lines1 trailing trailing1 eof eof1 m h h1 _ _ hsame
  obtain ⟨a1, a2⟩ := main_loop_layout lines trailing eof m h
  obtain ⟨b1, b2⟩ := main_loop_layout lines1 trailing1 eof1 m h1
  have htrees : (lines.map fun l => l.2.tree) = lines1.map fun l => l.2.tree := by
    have e : ∀ ls : List (List Token × Statement),
        (ls.map fun l => l.2.tree) = (ls.map Prod.snd).map Statement.tree := by
      intro ls; simp
    rw [e lines, e lines1, hsame]
  rw [a1, a2, b1, b2, htrees]
  exact ⟨rfl, rfl⟩

/-- The statements `x = 5` and `print x + 1` with no newline token at all, and
with blank lines before, between and after them. -/
theorem blank_lines_inert_within_capacity_example :
    (main_loop 8 [identifier_token ['x'], EQUALS_TOKEN, number_token 5,
        PRINT_TOKEN, identifier_token ['x'], PLUS_TOKEN, number_token 1, EOF_TOKEN] 0
        INITIAL).status =
      (main_loop 14 [NEWLINE_TOKEN, NEWLINE_TOKEN, identifier_token ['x'], EQUALS_TOKEN,
        number_token 5, NEWLINE_TOKEN, PRINT_TOKEN, identifier_token ['x'], PLUS_TOKEN,
        number_token 1, NEWLINE_TOKEN, NEWLINE_TOKEN, NEWLINE_TOKEN, EOF_TOKEN] 0
        INITIAL).status ∧
    (main_loop 8 [identifier_token ['x'], EQUALS_TOKEN, number_token 5,
        PRINT_TOKEN, identifier_token ['x'], PLUS_TOKEN, number_token 1, EOF_TOKEN] 0
        INITIAL).machine =
      (main_loop 14 [NEWLINE_TOKEN, NEWLINE_TOKEN, identifier_token ['x'], EQUALS_TOKEN,
        number_token 5, NEWLINE_TOKEN, PRINT_TOKEN, identifier_token ['x'], PLUS_TOKEN,
        number_token 1, NEWLINE_TOKEN, NEWLINE_TOKEN, NEWLINE_TOKEN, EOF_TOKEN] 0
        INITIAL).machine :=
  blank_lines_inert_within_capacity.1
    [([], .assign (identifier_token ['x']) EQUALS_TOKEN (number_token 5) []),
      ([], .print PRINT_TOKEN (identifier_token ['x']) [(PLUS_TOKEN, number_token 1)])]
    [([NEWLINE_TOKEN, NEWLINE_TOKEN],
        .assign (identifier_token ['x']) EQUALS_TOKEN (number_token 5) []),
      ([NEWLINE_TOKEN],
        .print PRINT_TOKEN (identifier_token ['x']) [(PLUS_TOKEN, number_token 1)])]
    [] [NEWLINE_TOKEN, NEWLINE_TOKEN, NEWLINE_TOKEN] EOF_TOKEN EOF_TOKEN INITIAL
    (by decide) (by decide) (by decide) (by decide) (by decide)

set_option maxRecDepth 100000 in
/-- C20 fails on the code: the 63 statements `x = 7` and the statement
`print x`, each followed by one newline token, are a valid program of exactly
`TOKENS_SIZE` tokens, the tokens of a source of 260 bytes, whose run returns 0
and prints the line `7`.  One more newline token after the last statement, a
blank line at the end of the source, gives a valid program of the same
statements with `TOKENS_SIZE + 1` tokens, one more than the array `tokens`
holds. -/
theorem blank_line_past_capacity :
    valid_program LINES_63_PRINT [NEWLINE_TOKEN] EOF_TOKEN = true ∧
    valid_program LINES_63_PRINT [NEWLINE_TOKEN, NEWLINE_TOKEN] EOF_TOKEN = true ∧
    SOURCE_63_LINES_PRINT.length = 260 ∧
    tokenize SOURCE_63_LINES_PRINT =
      .ok (program_tokens LINES_63_PRINT [NEWLINE_TOKEN] EOF_TOKEN) ∧
    tokenize (SOURCE_63_LINES_PRINT ++ ['\n']) =
      .ok (program_tokens LINES_63_PRINT [NEWLINE_TOKEN, NEWLINE_TOKEN] EOF_TOKEN) ∧
    (program_tokens LINES_63_PRINT [NEWLINE_TOKEN] EOF_TOKEN).length = TOKENS_SIZE ∧
    (program_tokens LINES_63_PRINT [NEWLINE_TOKEN, NEWLINE_TOKEN] EOF_TOKEN).length =
      TOKENS_SIZE + 1 ∧
    (main SOURCE_63_LINES_PRINT).status = .ok () ∧
    (main SOURCE_63_LINES_PRINT).machine.output = "7\n" := by
  decide

/-! ## The run of a well-scoped program -/

/-- C1, as stated, fails: the source `print 2147483647 + 1` lexes and parses to
one print statement without variables, and the sum of its two terms is
2147483648; yet the run prints the line `-2147483648`, since `eval` adds in
`int`.  Likewise the source `print 2147483648`, whose one term denotes
2147483648, prints the line `-2147483648`: the token holds the value of the
digits converted to `int`. -/
theorem print_sum_wraps :
    tokenize "print 2147483647 + 1\n".toList =
      .ok [PRINT_TOKEN, number_token 2147483647, PLUS_TOKEN, number_token 1, NEWLINE_TOKEN,
        EOF_TOKEN] ∧
    parse_program 7 [PRINT_TOKEN, number_token 2147483647, PLUS_TOKEN, number_token 1,
        NEWLINE_TOKEN, EOF_TOKEN] 0 =
      .ok [.AST_PRINT (.AST_BINARY_OP (.AST_NUMBER 2147483647) (.AST_NUMBER 1))] ∧
    well_scoped [] [.AST_PRINT (.AST_BINARY_OP (.AST_NUMBER 2147483647) (.AST_NUMBER 1))] = true ∧
    exact_output (fun _ => 0)
      [.AST_PRINT (.AST_BINARY_OP (.AST_NUMBER 2147483647) (.AST_NUMBER 1))] = "2147483648\n" ∧
    main "print 2147483647 + 1\n".toList = ⟨.ok (), 5, ⟨[], "-2147483648\n"⟩⟩ ∧
    (main "print 2147483647 + 1\n".toList).machine.output ≠ exact_output (fun _ => 0)
      [.AST_PRINT (.AST_BINARY_OP (.AST_NUMBER 2147483647) (.AST_NUMBER 1))] ∧
    decimal_value "2147483648".toList = 2147483648 ∧
    main "print 2147483648\n".toList = ⟨.ok (), 3, ⟨[], "-2147483648\n"⟩⟩ := by
  decide

/-- C1, amended: let the source lex to `tokens`, at most `TOKENS_SIZE` of them,
let the `parse_stmt` calls of the driver loop return the statement trees
`stmts` without an exit (with whatever fuel), and let `stmts` be assignments
and prints that reference no variable before an assignment to it.
Then the run returns 0 and its output is, in program order, one line per print
statement with the decimal value of its expression: the sum of its terms read
left to right in `int` arithmetic, a number term standing for the value of its
token, under the bindings of the earlier statements.  The same holds when the
tokens are laid out by the grammar: well-formed statements, each after a run
of newline tokens, a last such run and the end-of-input token; the trees are
then those of the statements.  The source `x = 2 + 3`, `y = x + 10`, `print y`
outputs exactly the line `15`. -/
theorem run_output_matches_spec :
    (∀ (source : List Char) (tokens : List Token) (stmts : List ASTNode) (fuel : Nat),
      tokenize source = .ok tokens →
      tokens.length ≤ TOKENS_SIZE →
      parse_program fuel tokens 0 = .ok stmts →
      well_scoped [] stmts = true →
      (main source).status = .ok () ∧
      (main source).machine.output = spec_output (fun _ => 0) stmts) ∧
    (∀ (source : List Char) (lines : List (List Token × Statement)) (trailing : List Token)
        (eof : Token),
      tokenize source = .ok (program_tokens lines trailing eof) →
      (program_tokens lines trailing eof).length ≤ TOKENS_SIZE →
      valid_program lines trailing eof = true →
      well_scoped [] (lines.map fun l => l.2.tree) = true →
      (main source).status = .ok () ∧
      (main source).machine.output = spec_output (fun _ => 0) (lines.map fun l => l.2.tree)) ∧
    main "x = 2 + 3\ny = x + 10\nprint y\n".toList =
      ⟨.ok (), 15, ⟨[⟨"x", 5⟩, ⟨"y", 15⟩], "15\n"⟩⟩ := by
  refine ⟨?_, ?_, by decide⟩
  · intro source tokens stmts fuel htok _ hparse hws
    obtain ⟨h1, h2⟩ := main_loop_eq_exec (tokens.length + 1) tokens 0 INITIAL stmts
      (parse_program_fuel fuel tokens 0 stmts (tokens.length + 1) hparse (by omega))
    obtain ⟨h3, h4⟩ := exec_well_scoped stmts [] (fun _ => 0) INITIAL (by simp) hws
    simp only [main, htok]
    rw [h1, h2, h3, h4]
    exact ⟨rfl, by simp [INITIAL]⟩
  · intro source lines trailing eof htok _ hvalid hws
    obtain ⟨h1, h2⟩ := main_loop_layout lines trailing eof INITIAL hvalid
    obtain ⟨h3, h4⟩ := exec_well_scoped (lines.map fun l => l.2.tree) [] (fun _ => 0) INITIAL
      (by simp) hws
    simp only [main, htok]
    rw [h1, h2, h3, h4]
    exact ⟨rfl, by simp [INITIAL]⟩

/-- Witness of C1: the source `a = 1`, `b = a + a + 2`, `print b`, `print a + b`
prints the lines `4` and `5`; the source `n = 2147483647`, a blank line,
`print n + 1 + n` prints the line `-1`. -/
theorem run_output_matches_spec_witness :
    ((main "a = 1\nb = a + a + 2\nprint b\nprint a + b\n".toList).status = .ok () ∧
      (main "a = 1\nb = a + a + 2\nprint b\nprint a + b\n".toList).machine.output =
        "4\n5\n") ∧
    ((main "n = 2147483647\n\nprint n + 1 + n".toList).status = .ok () ∧
      (main "n = 2147483647\n\nprint n + 1 + n".toList).machine.output = "-1\n") :=
  ⟨run_output_matches_spec.1 "a = 1\nb = a + a + 2\nprint b\nprint a + b\n".toList
    [identifier_token ['a'], EQUALS_TOKEN, number_token 1, NEWLINE_TOKEN,
      identifier_token ['b'], EQUALS_TOKEN, identifier_token ['a'], PLUS_TOKEN,
      identifier_token ['a'], PLUS_TOKEN, number_token 2, NEWLINE_TOKEN,
      PRINT_TOKEN, identifier_token ['b'], NEWLINE_TOKEN,
      PRINT_TOKEN, identifier_token ['a'], PLUS_TOKEN, identifier_token ['b'], NEWLINE_TOKEN,
      EOF_TOKEN]
    [.AST_ASSIGN "a" (.AST_NUMBER 1),
      .AST_ASSIGN "b" (.AST_BINARY_OP (.AST_BINARY_OP (.AST_VARIABLE "a") (.AST_VARIABLE "a"))
        (.AST_NUMBER 2)),
      .AST_PRINT (.AST_VARIABLE "b"),
      .AST_PRINT (.AST_BINARY_OP (.AST_VARIABLE "a") (.AST_VARIABLE "b"))]
    9 (by decide) (by decide) (by decide) (by decide),
   run_output_matches_spec.2.1 "n = 2147483647\n\nprint n + 1 + n".toList
    [([], .assign (identifier_token ['n']) EQUALS_TOKEN (number_token 2147483647) []),
      ([NEWLINE_TOKEN, NEWLINE_TOKEN], .print PRINT_TOKEN (identifier_token ['n'])
        [(PLUS_TOKEN, number_token 1), (PLUS_TOKEN, identifier_token ['n'])])]
    [] EOF_TOKEN (by decide) (by decide) (by decide) (by decide)⟩

end TokenizerAst
